import Mathlib

/-!
Verification development for a daily trend-following backtest engine and its
performance-metrics module.  The definitions shallowly embed the Python source
(`backtester.py`, `metrics.py`): prices, capital and P&L are modelled as exact
rationals, calendar dates as integers (day numbers), and the pandas
date-indexed frames as association lists ordered by date.  Dates are unique
per instrument (spec data contract: strictly increasing dates), so the
first-occurrence lookups below coincide with the pandas positional lookups.
-/

namespace Trendfol

/-- One daily OHLC row together with the ATR indicator column
(`df.loc[date]` in the source; `row.get("atr", 0)` is the `atrV` field). -/
structure Row where
  openP : ℚ
  highP : ℚ
  lowP : ℚ
  closeP : ℚ
  atrV : ℚ
deriving Repr, DecidableEq

/-- Transaction-cost and sizing configuration: `CostConfig` together with the
engine constructor arguments `risk_factor` and `fractional`. -/
structure Cfg where
  commissionPerContract : ℚ
  exchangeFeePerContract : ℚ
  slippagePct : ℚ
  riskFactor : ℚ
  fractional : Bool
deriving Repr, DecidableEq

/-- `CostConfig.total_per_contract`. -/
def Cfg.totalPerContract (c : Cfg) : ℚ :=
  c.commissionPerContract + c.exchangeFeePerContract

/-- `BacktestEngine._calc_costs`: commission plus slippage. -/
def calcCosts (c : Cfg) (contracts price : ℚ) : ℚ :=
  contracts * c.totalPerContract + contracts * price * c.slippagePct

/-- An open position (`Position` dataclass).  `troughPrice = none` stands for
the Python initial value `float("inf")`. -/
structure Position where
  instrument : String
  direction : ℤ
  contracts : ℚ
  entryPrice : ℚ
  entryDate : ℤ
  pointValue : ℚ
  entryAtr : ℚ
  peakPrice : ℚ
  troughPrice : Option ℚ
deriving Repr, DecidableEq

/-- A closed trade (`Trade` dataclass). -/
structure Trade where
  instrument : String
  direction : ℤ
  contracts : ℚ
  entryPrice : ℚ
  exitPrice : ℚ
  entryDate : ℤ
  exitDate : ℤ
  pnl : ℚ
  pnlPct : ℚ
  grossPnl : ℚ
  costsTotal : ℚ
  holdingDays : ℤ
deriving Repr, DecidableEq

/-- Python `dict.get`: the first binding of a key in an association list. -/
def alGet {α : Type} (l : List (String × α)) (k : String) : Option α :=
  match l with
  | [] => none
  | (k', v) :: rest => if k' = k then some v else alGet rest k

/-- Python `dict[k] = v`: replace the binding in place, else append. -/
def alSet {α : Type} (l : List (String × α)) (k : String) (v : α) :
    List (String × α) :=
  match l with
  | [] => [(k, v)]
  | (k', v') :: rest =>
    if k' = k then (k, v) :: rest else (k', v') :: alSet rest k v

/-- Python `dict.pop(k, None)`: drop the binding of a key. -/
def alRemove {α : Type} (l : List (String × α)) (k : String) :
    List (String × α) :=
  match l with
  | [] => []
  | (k', v') :: rest => if k' = k then rest else (k', v') :: alRemove rest k

/-- A date-indexed OHLC frame: the ordered list of `(date, row)` pairs. -/
abbrev InstrData := List (ℤ × Row)

/-- `date in df.index` and `df.loc[date]`: the row at a given date. -/
def rowAt (df : InstrData) (d : ℤ) : Option Row :=
  match df with
  | [] => none
  | (d', r) :: rest => if d' = d then some r else rowAt rest d

/-- The entry following the given date in the instrument's own calendar:
`next_idx = date_indices[inst][date]`, then `df.index[next_idx + 1]` when
`next_idx + 1 < len(df.index)`. -/
def nextEntry (df : InstrData) (d : ℤ) : Option (ℤ × Row) :=
  match df with
  | [] => none
  | (d', _) :: rest => if d' = d then rest.head? else nextEntry rest d

/-- Python `int(...)` applied to a rational: truncation toward zero. -/
def truncQ (q : ℚ) : ℤ := if 0 ≤ q then ⌊q⌋ else ⌈q⌉

/-- The position-sizing computation of `BacktestEngine._open_position`:
`raw = (capital * risk_factor) / (atr * point_value)`, truncated toward zero
in whole-contract mode, used raw in fractional mode, and zero whenever the
ATR or the point value is not positive. -/
def computeContracts (c : Cfg) (capital atr pointValue : ℚ) : ℚ :=
  if 0 < atr ∧ 0 < pointValue then
    let raw := capital * c.riskFactor / (atr * pointValue)
    if c.fractional then raw else ((truncQ raw : ℤ) : ℚ)
  else 0

/-- The mutable engine state of `BacktestEngine`. -/
structure EngineState where
  capital : ℚ
  positions : List (String × Position)
  trades : List Trade
  equityHistory : List (ℤ × ℚ)
deriving Repr, DecidableEq

/-- The freshly constructed engine state. -/
def initState (initialCapital : ℚ) : EngineState :=
  { capital := initialCapital, positions := [], trades := [],
    equityHistory := [] }

/-- `BacktestEngine._open_position`. -/
def openPosition (c : Cfg) (pointValue : ℚ) (st : EngineState) (inst : String)
    (dir : ℤ) (price : ℚ) (d : ℤ) (currentAtr : ℚ) : EngineState :=
  let contracts := computeContracts c st.capital currentAtr pointValue
  if contracts ≤ 0 then st
  else
    let entryCost := calcCosts c contracts price
    { st with
      capital := st.capital - entryCost
      positions := alSet st.positions inst
        { instrument := inst, direction := dir, contracts := contracts,
          entryPrice := price, entryDate := d, pointValue := pointValue,
          entryAtr := currentAtr,
          peakPrice := if dir = 1 then price else 0,
          troughPrice := if dir = -1 then some price else none } }

/-- `BacktestEngine._close_position`. -/
def closePosition (c : Cfg) (st : EngineState) (inst : String)
    (price : ℚ) (d : ℤ) : EngineState :=
  match alGet st.positions inst with
  | none => st
  | some pos =>
    let priceDiff := (price - pos.entryPrice) * (pos.direction : ℚ)
    let grossPnl := priceDiff * pos.contracts * pos.pointValue
    let exitCost := calcCosts c pos.contracts price
    let entryCost := calcCosts c pos.contracts pos.entryPrice
    let totalCosts := entryCost + exitCost
    let netPnl := grossPnl - exitCost
    let newCapital := st.capital + grossPnl - exitCost
    let entryEquity := newCapital - netPnl + totalCosts
    let pnlPct := if 0 < entryEquity then netPnl / entryEquity else 0
    { st with
      capital := newCapital
      positions := alRemove st.positions inst
      trades := st.trades ++ [{
        instrument := pos.instrument, direction := pos.direction,
        contracts := pos.contracts, entryPrice := pos.entryPrice,
        exitPrice := price, entryDate := pos.entryDate, exitDate := d,
        pnl := netPnl, pnlPct := pnlPct, grossPnl := grossPnl,
        costsTotal := totalCosts, holdingDays := d - pos.entryDate }] }

/-- `BacktestEngine._mark_to_market`: unrealized P&L of all open positions
with data on the given date. -/
def markToMarket (positions : List (String × Position))
    (data : List (String × InstrData)) (d : ℤ) : ℚ :=
  positions.foldl (fun acc e =>
    match alGet data e.1 with
    | none => acc
    | some df =>
      match rowAt df d with
      | none => acc
      | some r => acc + (r.closeP - e.2.entryPrice) * (e.2.direction : ℚ)
          * e.2.contracts * e.2.pointValue) 0

/-- The per-position body of `BacktestEngine._update_trailing`. -/
def updateTrailingPos (pos : Position) (r : Row) : Position :=
  if pos.direction = 1 then { pos with peakPrice := max pos.peakPrice r.highP }
  else { pos with troughPrice := some (match pos.troughPrice with
      | none => r.lowP
      | some t => min t r.lowP) }

/-- `BacktestEngine._update_trailing`. -/
def updateTrailing (data : List (String × InstrData)) (d : ℤ)
    (st : EngineState) : EngineState :=
  { st with positions := st.positions.map (fun e =>
      match alGet data e.1 with
      | none => e
      | some df =>
        match rowAt df d with
        | none => e
        | some r => (e.1, updateTrailingPos e.2 r)) }

/-- The strategy contract: `strategy_func(date, row, instrument, positions)`. -/
abbrev Strategy := ℤ → Row → String → List (String × Position) → ℤ

/-- `current_dir = current_pos.direction if current_pos else 0`. -/
def currentDirOf (st : EngineState) (inst : String) : ℤ :=
  match alGet st.positions inst with
  | some pos => pos.direction
  | none => 0

/-- One instrument's share of the per-day signal / transition / execution
block inside `BacktestEngine.run` (the body of the
`for inst_name, df in data.items()` loop). -/
def processInstrument (c : Cfg) (strat : Strategy) (pointValue : String → ℚ)
    (inst : String) (df : InstrData) (d : ℤ) (st : EngineState) : EngineState :=
  match rowAt df d with
  | none => st
  | some row =>
    let signal := strat d row inst st.positions
    if signal = currentDirOf st inst then st
    else
      match nextEntry df d with
      | none => st
      | some (nd, nr) =>
        let execPrice := nr.openP
        let st1 := match alGet st.positions inst with
          | some _ => closePosition c st inst execPrice nd
          | none => st
        if signal ≠ 0 then
          openPosition c (pointValue inst) st1 inst signal execPrice nd row.atrV
        else st1

/-- One full day of `BacktestEngine.run`: mark-to-market and record equity,
then evaluate every instrument's signal and execute transitions, then update
the trailing references. -/
def stepDate (c : Cfg) (strat : Strategy) (pointValue : String → ℚ)
    (data : List (String × InstrData)) (st : EngineState) (d : ℤ) :
    EngineState :=
  let unrealized := markToMarket st.positions data d
  let st' := { st with
    equityHistory := st.equityHistory ++ [(d, st.capital + unrealized)] }
  let st'' := data.foldl
    (fun s e => processInstrument c strat pointValue e.1 e.2 d s) st'
  updateTrailing data d st''

/-- `sorted(set().union(*(df.index for df in data.values())))`. -/
def sortedUnionDates (data : List (String × InstrData)) : List ℤ :=
  ((data.map (fun e => e.2.map (·.1))).flatten).dedup.insertionSort (· ≤ ·)

/-- `BacktestEngine.run` (progress printing and the final conversion to a
pandas series / list of dicts are formatting, not modelled).  After the day
loop the last equity observation is overwritten with a final mark-to-market
at the last calendar date. -/
def run (c : Cfg) (strat : Strategy) (pointValue : String → ℚ)
    (data : List (String × InstrData)) (initialCapital : ℚ) : EngineState :=
  let allDates := sortedUnionDates data
  let st := allDates.foldl (stepDate c strat pointValue data)
    (initState initialCapital)
  match allDates.getLast? with
  | none => st
  | some dLast =>
    match st.equityHistory.getLast? with
    | none => st
    | some lastObs =>
      let finalUnrealized := markToMarket st.positions data dLast
      { st with equityHistory :=
          st.equityHistory.dropLast ++ [(lastObs.1, st.capital + finalUnrealized)] }

/-- Entry cost of an open position, as `_close_position` recomputes it. -/
def entryCostOf (c : Cfg) (p : Position) : ℚ :=
  calcCosts c p.contracts p.entryPrice

/-- Total entry cost of the open-positions map. -/
def openEntryCosts (c : Cfg) (ps : List (String × Position)) : ℚ :=
  (ps.map (fun e => entryCostOf c e.2)).sum

/-- Entry cost of a closed trade, recomputed from its recorded fields. -/
def tradeEntryCost (c : Cfg) (t : Trade) : ℚ :=
  calcCosts c t.contracts t.entryPrice

/-- Exit cost of a closed trade, recomputed from its recorded fields. -/
def tradeExitCost (c : Cfg) (t : Trade) : ℚ :=
  calcCosts c t.contracts t.exitPrice

/-- Cash-capital ledger equation: capital equals the initial capital, minus
the entry costs of every position opened so far (open or closed), plus the
gross P&L net of exit cost of every closed trade. -/
def capitalInvariant (c : Cfg) (init : ℚ) (st : EngineState) : Prop :=
  st.capital = init - openEntryCosts c st.positions
    - (st.trades.map (tradeEntryCost c)).sum
    + (st.trades.map (fun t => t.grossPnl - tradeExitCost c t)).sum

/-- Field identities of an emitted trade: net P&L is gross P&L minus exit
cost, and the recorded total cost is entry cost plus exit cost. -/
def tradeConsistent (c : Cfg) (t : Trade) : Prop :=
  t.pnl = t.grossPnl - tradeExitCost c t ∧
  t.costsTotal = tradeEntryCost c t + tradeExitCost c t

/-- Replaying the ledger from the initial capital: subtract each trade's
entry cost (derivable from its fields as `costsTotal - (grossPnl - pnl)`)
and add its net P&L, sequentially. -/
def replayLedger (init : ℚ) (ts : List Trade) : ℚ :=
  ts.foldl (fun cap t => cap - (t.costsTotal - (t.grossPnl - t.pnl)) + t.pnl) init

/-- Mark-to-market value written as an explicit sum over the open positions
whose instrument has data on the date. -/
def mtmSpec (positions : List (String × Position))
    (data : List (String × InstrData)) (d : ℤ) : ℚ :=
  (positions.filterMap (fun e =>
    match alGet data e.1 with
    | none => none
    | some df => (rowAt df d).map (fun r =>
        (r.closeP - e.2.entryPrice) * (e.2.direction : ℚ)
          * e.2.contracts * e.2.pointValue))).sum

/-- The equity observations the engine should record: for each date, the
cash capital of the state before that date's signal evaluations plus the
mark-to-market of the positions open at that moment. -/
def equitySpec (c : Cfg) (strat : Strategy) (pointValue : String → ℚ)
    (data : List (String × InstrData)) :
    EngineState → List ℤ → List (ℤ × ℚ)
  | _, [] => []
  | st, d :: ds =>
    (d, st.capital + mtmSpec st.positions data d) ::
      equitySpec c strat pointValue data
        (stepDate c strat pointValue data st d) ds

/-! ## Metrics module (`metrics.py`) -/

/-- Arithmetic mean (`np.mean`, `Series.mean`). -/
def mean (l : List ℚ) : ℚ := l.sum / (l.length : ℚ)

/-- Sample variance with one delta degree of freedom, the square of the
pandas `Series.std()`; the 0- and 1-element cases (NaN in pandas, which
fails every `> 0` guard) are mapped to 0. -/
def sampleVar (l : List ℚ) : ℚ :=
  if l.length ≤ 1 then 0
  else (l.map (fun x => (x - mean l) ^ 2)).sum / ((l.length : ℚ) - 1)

/-- `equity_curve.pct_change().dropna()`. -/
def dailyReturns (vals : List ℚ) : List ℚ :=
  (vals.zip vals.tail).map (fun p => p.2 / p.1 - 1)

/-- Running-maximum drawdown values, one step. -/
def drawdownAux : List (ℤ × ℚ) → ℚ → List (ℤ × ℚ)
  | [], _ => []
  | (d, e) :: rest, m =>
    let m' := max m e
    (d, (e - m') / m') :: drawdownAux rest m'

/-- `cummax = equity_curve.cummax(); drawdown = (equity_curve - cummax) / cummax`. -/
def drawdownSeries : List (ℤ × ℚ) → List (ℤ × ℚ)
  | [] => []
  | (d, e) :: rest => drawdownAux ((d, e) :: rest) e

/-- `drawdown.min()` (0 for an empty series). -/
def maxDrawdown (eq : List (ℤ × ℚ)) : ℚ :=
  match (drawdownSeries eq).map (·.2) with
  | [] => 0
  | v :: vs => vs.foldl min v

/-- Accumulator pass realising the pandas grouping
`groups = (~in_dd).cumsum(); drawdown[in_dd].groupby(groups[in_dd])`:
the contiguous runs of strictly-negative drawdown days, in order. -/
def runsAux : List (ℤ × ℚ) → List (ℤ × ℚ) → List (List (ℤ × ℚ))
  | [], cur => if cur.isEmpty then [] else [cur.reverse]
  | x :: rest, cur =>
    if x.2 < 0 then runsAux rest (x :: cur)
    else if cur.isEmpty then runsAux rest []
    else cur.reverse :: runsAux rest []

/-- The contiguous in-drawdown runs of a drawdown series. -/
def ddRuns (dd : List (ℤ × ℚ)) : List (List (ℤ × ℚ)) := runsAux dd []

/-- `(group.index[-1] - group.index[0]).days`. -/
def runDuration (r : List (ℤ × ℚ)) : ℤ :=
  (r.getLastD (0, 0)).1 - (r.headD (0, 0)).1

/-- `_max_drawdown_duration`. -/
def maxDrawdownDuration (dd : List (ℤ × ℚ)) : ℤ :=
  (ddRuns dd).foldl (fun m r => max m (runDuration r)) 0

/-- Drawdown value at index `i` of the series. -/
def valAt (dd : List (ℤ × ℚ)) (i : ℕ) : ℚ := (dd.getD i (0, 0)).2

/-- Date at index `i` of the series. -/
def dateAt (dd : List (ℤ × ℚ)) (i : ℕ) : ℤ := (dd.getD i (0, 0)).1

/-- Day `i` is in drawdown: its drawdown value is strictly negative. -/
def inDrawdown (dd : List (ℤ × ℚ)) (i : ℕ) : Prop := valAt dd i < 0

/-- The index interval `[i, j]` is a maximal contiguous run of
in-drawdown days. -/
def isMaxRun (dd : List (ℤ × ℚ)) (i j : ℕ) : Prop :=
  i ≤ j ∧ j < dd.length ∧ (∀ k ∈ Finset.Icc i j, inDrawdown dd k) ∧
  (i = 0 ∨ ¬ inDrawdown dd (i - 1)) ∧
  (j + 1 = dd.length ∨ ¬ inDrawdown dd (j + 1))

instance (dd : List (ℤ × ℚ)) (i j : ℕ) : Decidable (isMaxRun dd i j) := by
  unfold isMaxRun inDrawdown; infer_instance

/-- Specification value of the maximum drawdown duration: the maximum, over
all maximal contiguous runs of in-drawdown days, of the calendar span
between the run's first and last date, and 0 when no day is in drawdown. -/
def specMaxDDDuration (dd : List (ℤ × ℚ)) : ℤ :=
  (((Finset.range dd.length) ×ˢ (Finset.range dd.length)).filter
    (fun p => isMaxRun dd p.1 p.2)).fold (· ⊔ ·) 0
    (fun p => dateAt dd p.2 - dateAt dd p.1)

/-- CAGR from `compute_metrics`: the year count is
(number of daily returns) / trading_days_per_year and the value is `-1.0`
when the guard `n_years > 0 and end > 0 and start > 0` fails. -/
noncomputable def cagrOf (eq : List (ℤ × ℚ)) (tradingDaysPerYear : ℚ) : ℝ :=
  let vals := eq.map (·.2)
  let nYears : ℚ := ((dailyReturns vals).length : ℚ) / tradingDaysPerYear
  let firstV := vals.headD 0
  let lastV := vals.getLastD 0
  if 0 < nYears ∧ 0 < lastV ∧ 0 < firstV then
    Real.rpow ((lastV / firstV : ℚ) : ℝ) ((1 / nYears : ℚ) : ℝ) - 1
  else -1

/-- Sharpe ratio from `compute_metrics`: 0 unless the daily-return standard
deviation is positive (the pandas NaN std of a 0/1-element series also fails
the `> 0` guard, matching `sampleVar = 0` here). -/
noncomputable def sharpeOf (returns : List ℚ)
    (riskFree tradingDaysPerYear : ℚ) : ℝ :=
  let excess := returns.map (fun r => r - riskFree / tradingDaysPerYear)
  if 0 < sampleVar returns then
    ((mean excess : ℚ) : ℝ) / Real.sqrt ((sampleVar returns : ℚ) : ℝ)
      * Real.sqrt ((tradingDaysPerYear : ℚ) : ℝ)
  else 0

/-- `downside_std` from `compute_metrics`. -/
noncomputable def downsideStdOf (returns : List ℚ)
    (tradingDaysPerYear : ℚ) : ℝ :=
  let downside := returns.filter (fun r => r < 0)
  if downside.isEmpty then 0
  else Real.sqrt ((sampleVar downside : ℚ) : ℝ)
    * Real.sqrt ((tradingDaysPerYear : ℚ) : ℝ)

/-- Sortino ratio from `compute_metrics`. -/
noncomputable def sortinoOf (eq : List (ℤ × ℚ))
    (tradingDaysPerYear : ℚ) : ℝ :=
  let returns := dailyReturns (eq.map (·.2))
  if 0 < downsideStdOf returns tradingDaysPerYear then
    cagrOf eq tradingDaysPerYear / downsideStdOf returns tradingDaysPerYear
  else 0

/-- Calmar ratio from `compute_metrics`. -/
noncomputable def calmarOf (eq : List (ℤ × ℚ))
    (tradingDaysPerYear : ℚ) : ℝ :=
  if maxDrawdown eq ≠ 0 then
    cagrOf eq tradingDaysPerYear / ((|maxDrawdown eq| : ℚ) : ℝ)
  else 0

/-- Python float values that may be `float("inf")`. -/
inductive PyVal where
  | val : ℚ → PyVal
  | inf : PyVal
deriving Repr, DecidableEq

/-- The trade-dict fields consumed by the ledger statistics of
`compute_metrics`. -/
structure MTrade where
  pnl : ℚ
  pnlPct : ℚ
deriving Repr, DecidableEq

/-- `profit_factor` from `compute_metrics` (0 when the ledger is empty). -/
def profitFactorOf (trades : List MTrade) : PyVal :=
  if trades.isEmpty then .val 0
  else
    let pnls := trades.map (·.pnl)
    let wins := pnls.filter (fun p => 0 < p)
    let losses := pnls.filter (fun p => p ≤ 0)
    let grossProfit := wins.sum
    let grossLoss := |losses.sum|
    if 0 < grossLoss then .val (grossProfit / grossLoss) else .inf

/-- `avg_win` from `compute_metrics` (percentage points). -/
def avgWinPct (trades : List MTrade) : ℚ :=
  let winPcts := (trades.map (·.pnlPct)).filter (fun p => 0 < p)
  if winPcts.isEmpty then 0 else mean winPcts * 100

/-- `avg_loss` from `compute_metrics` (percentage points). -/
def avgLossPct (trades : List MTrade) : ℚ :=
  let lossPcts := (trades.map (·.pnlPct)).filter (fun p => p ≤ 0)
  if lossPcts.isEmpty then 0 else mean lossPcts * 100

/-- `payoff_ratio` from `compute_metrics` (0 when the ledger is empty). -/
def payoffRatioOf (trades : List MTrade) : PyVal :=
  if trades.isEmpty then .val 0
  else if avgLossPct trades ≠ 0 then .val |avgWinPct trades / avgLossPct trades|
  else .inf

/-! ## Basic association-list and fold lemmas -/

theorem alGet_alSet_self {α : Type} (l : List (String × α)) (k : String)
    (v : α) : alGet (alSet l k v) k = some v := by
  induction l with
  | nil => simp [alGet, alSet]
  | cons e rest ih =>
    by_cases h : e.1 = k
    · simp [alGet, alSet, h]
    · simpa [alGet, alSet, h] using ih

theorem alGet_alSet_other {α : Type} (l : List (String × α)) (k k' : String)
    (v : α) (h : k ≠ k') : alGet (alSet l k v) k' = alGet l k' := by
  induction l with
  | nil => simp [alGet, alSet, h]
  | cons e rest ih =>
    by_cases he : e.1 = k
    · simp [alGet, alSet, he, h]
    · simp [alGet, alSet, he, ih]

theorem alGet_alRemove_other {α : Type} (l : List (String × α)) (k k' : String)
    (h : k ≠ k') : alGet (alRemove l k) k' = alGet l k' := by
  induction l with
  | nil => simp [alGet, alRemove]
  | cons e rest ih =>
    by_cases he : e.1 = k
    · simp [alGet, alRemove, he, h]
    · simp [alGet, alRemove, he, ih]

theorem alGet_none_of_not_mem_keys {α : Type} (l : List (String × α))
    (k : String) (h : k ∉ l.map Prod.fst) : alGet l k = none := by
  induction l with
  | nil => rfl
  | cons e rest ih =>
    simp only [List.map_cons, List.mem_cons, not_or] at h
    have h1 : e.1 ≠ k := fun hh => h.1 hh.symm
    simp [alGet, h1, ih h.2]

theorem alGet_alRemove_self {α : Type} (l : List (String × α)) (k : String)
    (hnd : (l.map Prod.fst).Nodup) : alGet (alRemove l k) k = none := by
  induction l with
  | nil => rfl
  | cons e rest ih =>
    simp only [List.map_cons, List.nodup_cons] at hnd
    by_cases he : e.1 = k
    · simpa [alRemove, he] using alGet_none_of_not_mem_keys rest k (he ▸ hnd.1)
    · simpa [alRemove, alGet, he] using ih hnd.2

theorem alSet_eq_append {α : Type} (l : List (String × α)) (k : String)
    (v : α) (h : alGet l k = none) : alSet l k v = l ++ [(k, v)] := by
  induction l with
  | nil => rfl
  | cons e rest ih =>
    by_cases he : e.1 = k
    · simp [alGet, he] at h
    · simp only [alGet, he, if_false] at h
      simp [alSet, he, ih h]

theorem alRemove_sublist {α : Type} (l : List (String × α)) (k : String) :
    (alRemove l k).Sublist l := by
  induction l with
  | nil => simp [alRemove]
  | cons e rest ih =>
    by_cases he : e.1 = k
    · simp only [alRemove, he, if_true, reduceIte]
      exact List.sublist_cons_self e rest
    · simp only [alRemove, he, reduceIte]
      exact ih.cons₂ e

theorem keys_nodup_alRemove {α : Type} (l : List (String × α)) (k : String)
    (h : (l.map Prod.fst).Nodup) : ((alRemove l k).map Prod.fst).Nodup :=
  ((alRemove_sublist l k).map Prod.fst).nodup h

theorem keys_nodup_alSet_of_none {α : Type} (l : List (String × α))
    (k : String) (v : α) (h : (l.map Prod.fst).Nodup)
    (hk : alGet l k = none) : ((alSet l k v).map Prod.fst).Nodup := by
  rw [alSet_eq_append l k v hk]
  induction l with
  | nil => simp
  | cons e rest ih =>
    simp only [List.map_cons, List.nodup_cons] at h
    simp only [List.cons_append, List.map_cons, List.nodup_cons]
    by_cases he : e.1 = k
    · simp [alGet, he] at hk
    · simp only [alGet, he, if_false] at hk
      refine ⟨?_, ih h.2 hk⟩
      simp only [List.map_append, List.mem_append, List.map_cons,
        List.map_nil, List.mem_singleton]
      rintro (hmem | rfl)
      · exact h.1 hmem
      · exact he rfl

theorem list_sum_map_congr {α : Type} (l : List α) (f g : α → ℚ)
    (h : ∀ x ∈ l, f x = g x) : (l.map f).sum = (l.map g).sum := by
  induction l with
  | nil => rfl
  | cons a t ih =>
    simp only [List.map_cons, List.sum_cons, h a (List.mem_cons_self a t)]
    rw [ih fun x hx => h x (List.mem_cons_of_mem a hx)]

theorem list_sum_map_sub {α : Type} (l : List α) (f g : α → ℚ) :
    (l.map fun x => f x - g x).sum = (l.map f).sum - (l.map g).sum := by
  induction l with
  | nil => simp
  | cons a t ih => simp [ih]; ring

theorem foldl_preserve {α β : Type} (g : α → β → α) (P : α → Prop)
    (l : List β) (h : ∀ s e, e ∈ l → P s → P (g s e)) :
    ∀ s, P s → P (l.foldl g s) := by
  induction l with
  | nil => intro s hs; simpa using hs
  | cons e t ih =>
    intro s hs
    exact ih (fun s' e' he' hs' => h s' e' (List.mem_cons_of_mem e he') hs')
      (g s e) (h s e (List.mem_cons_self e t) hs)

theorem foldl_add_eq_sum (l : List Trade) (g : Trade → ℚ) :
    ∀ init : ℚ, l.foldl (fun cap t => cap + g t) init = init + (l.map g).sum := by
  induction l with
  | nil => intro init; simp
  | cons a t ih => intro init; simp [ih]; ring

/-! ## Claim C3: position sizing -/

/-- Claim C3: for every attempted position opening, a nonpositive ATR or
point value yields size 0; otherwise `raw = capital * risk_factor /
(atr * point_value)` is truncated toward zero (never rounded up) in
whole-contract mode and used unmodified in fractional mode; and whenever the
computed size is nonpositive, `_open_position` leaves the engine state
(capital and positions) unchanged and raises no error. -/
theorem claim_C3 (c : Cfg) (capAmt atr pv : ℚ) :
    (atr ≤ 0 ∨ pv ≤ 0 → computeContracts c capAmt atr pv = 0) ∧
    (0 < atr → 0 < pv →
      (c.fractional = true →
        computeContracts c capAmt atr pv = capAmt * c.riskFactor / (atr * pv)) ∧
      (c.fractional = false →
        computeContracts c capAmt atr pv
          = ((truncQ (capAmt * c.riskFactor / (atr * pv)) : ℤ) : ℚ) ∧
        (0 ≤ capAmt * c.riskFactor / (atr * pv) →
          ((truncQ (capAmt * c.riskFactor / (atr * pv)) : ℤ) : ℚ)
            ≤ capAmt * c.riskFactor / (atr * pv)))) ∧
    (∀ (pointValue : ℚ) (st : EngineState) (inst : String) (dir : ℤ)
        (price : ℚ) (d : ℤ) (curAtr : ℚ),
      computeContracts c st.capital curAtr pointValue ≤ 0 →
      openPosition c pointValue st inst dir price d curAtr = st) := by
  refine ⟨?_, ?_, ?_⟩
  · intro h
    have hng : ¬ (0 < atr ∧ 0 < pv) := by
      rcases h with h | h
      · exact fun hc => absurd hc.1 (not_lt.mpr h)
      · exact fun hc => absurd hc.2 (not_lt.mpr h)
    simp [computeContracts, hng]
  · intro ha hp
    constructor
    · intro hfrac
      simp [computeContracts, ha, hp, hfrac]
    · intro hfrac
      constructor
      · simp [computeContracts, ha, hp, hfrac]
      · intro hraw
        rw [truncQ, if_pos hraw]
        exact_mod_cast Int.floor_le _
  · intro pointValue st inst dir price d curAtr h
    rw [openPosition]
    simp only [h, if_pos]

/-- Witness for C3: zero ATR gives size 0 and leaves the state unchanged;
whole-contract sizing truncates. -/
theorem claim_C3_witness :
    computeContracts ⟨1, 1, 0, 1/10, false⟩ 1000 0 1 = 0 ∧
    computeContracts ⟨1, 1, 0, 1/10, false⟩ 1000 1 1
      = ((truncQ (1000 * (1/10) / (1 * 1)) : ℤ) : ℚ) ∧
    openPosition ⟨1, 1, 0, 1/10, false⟩ 1 (initState 1000) "A" 1 10 0 0
      = initState 1000 := by
  refine ⟨(claim_C3 ⟨1, 1, 0, 1/10, false⟩ 1000 0 1).1 (Or.inl le_rfl),
    (((claim_C3 ⟨1, 1, 0, 1/10, false⟩ 1000 1 1).2.1 (by norm_num)
      (by norm_num)).2 rfl).1,
    (claim_C3 ⟨1, 1, 0, 1/10, false⟩ 1000 0 1).2.2 1 (initState 1000)
      "A" 1 10 0 0 ?_⟩
  norm_num [initState, computeContracts]

/-! ## Claim C7: percentage P&L at close -/

/-- Claim C7 (amended): when a position is closed, the emitted Trade's
percentage P&L equals the net P&L divided by the entry-time-equity
approximation computed as the post-close capital MINUS net P&L PLUS total
costs whenever that denominator is positive, and 0 otherwise.  (The claim's
"post-close capital plus net P&L minus total costs" has the signs of the
adjustment reversed; see the counterexample.) -/
theorem claim_C7 (c : Cfg) (st : EngineState) (inst : String) (price : ℚ)
    (d : ℤ) (pos : Position) (h : alGet st.positions inst = some pos) :
    ∃ t : Trade,
      (closePosition c st inst price d).trades = st.trades ++ [t] ∧
      t.pnlPct = (if 0 < (closePosition c st inst price d).capital
            - t.pnl + t.costsTotal
        then t.pnl / ((closePosition c st inst price d).capital
            - t.pnl + t.costsTotal)
        else 0) := by
  simp only [closePosition, h]
  exact ⟨_, rfl, rfl⟩

/-- A long position in instrument A: 1 contract, entry price 10, point
value 1, used to exercise `_close_position` concretely. -/
def posA : Position := ⟨"A", 1, 1, 10, 0, 1, 1, 10, none⟩

/-- Concrete engine state: capital 100, position `posA` open, no trades. -/
def stA : EngineState := ⟨100, [("A", posA)], [], []⟩

/-- A configuration with all costs zero (risk factor 1, whole contracts). -/
def cfgZero : Cfg := ⟨0, 0, 0, 1, false⟩

/-- Counterexample for C7 as stated: with zero costs, entry 10, exit 20,
one contract, point value 1 and pre-close capital 100, the code emits
`pnl_pct = 10 / 100 = 1/10` (post-close capital 110 MINUS net 10 PLUS costs
0), while the claim's formula `net / (post-close capital + net - costs)`
gives `10 / 120`, with a positive denominator, so the claim is false. -/
theorem claim_C7_counterexample :
    (closePosition cfgZero stA "A" 20 5).trades
      = [⟨"A", 1, 1, 10, 20, 0, 5, 10, 1/10, 10, 0, 5⟩] ∧
    (closePosition cfgZero stA "A" 20 5).capital = 110 ∧
    (0 : ℚ) < 110 + 10 - 0 ∧ (1/10 : ℚ) ≠ 10 / (110 + 10 - 0) := by
  refine ⟨?_, ?_, by norm_num, by norm_num⟩ <;>
    norm_num [closePosition, stA, posA, cfgZero, alGet, calcCosts,
      Cfg.totalPerContract, alRemove, Trade.mk.injEq]

/-- Witness for C7: the concrete close of the counterexample setup, seen
through the amended formula. -/
theorem claim_C7_witness :
    ∃ t : Trade,
      (closePosition cfgZero stA "A" 20 5).trades = stA.trades ++ [t] ∧
      t.pnlPct = (if 0 < (closePosition cfgZero stA "A" 20 5).capital
            - t.pnl + t.costsTotal
        then t.pnl / ((closePosition cfgZero stA "A" 20 5).capital
            - t.pnl + t.costsTotal)
        else 0) :=
  claim_C7 cfgZero stA "A" 20 5 posA rfl

/-! ## Claim C9: degenerate-denominator metrics -/

/-- Claim C9: degenerate-denominator metrics never raise and resolve to
conventional values: a nonempty ledger with no losing trades yields profit
factor and payoff ratio `+inf`; the Sharpe ratio is 0 when the daily-return
standard deviation (sample variance) is 0; the Sortino ratio is 0 when
there are no negative daily returns or the downside deviation is 0; the
Calmar ratio is 0 when the maximum drawdown is 0. -/
theorem claim_C9 (eqc : List (ℤ × ℚ)) (trades : List MTrade)
    (riskFree tdpy : ℚ) :
    (trades ≠ [] → (∀ t ∈ trades, 0 < t.pnl) →
      profitFactorOf trades = .inf) ∧
    (trades ≠ [] → (∀ t ∈ trades, 0 < t.pnlPct) →
      payoffRatioOf trades = .inf) ∧
    (∀ returns : List ℚ, sampleVar returns = 0 →
      sharpeOf returns riskFree tdpy = 0) ∧
    (((dailyReturns (eqc.map (·.2))).filter (fun r => r < 0) = [] ∨
        sampleVar ((dailyReturns (eqc.map (·.2))).filter (fun r => r < 0)) = 0) →
      sortinoOf eqc tdpy = 0) ∧
    (maxDrawdown eqc = 0 → calmarOf eqc tdpy = 0) := by
  refine ⟨?_, ?_, ?_, ?_, ?_⟩
  · intro hne hpos
    have hfil : (trades.map (·.pnl)).filter (fun p => p ≤ 0) = [] := by
      rw [List.filter_eq_nil_iff]
      intro a ha
      simp only [List.mem_map] at ha
      obtain ⟨t, ht, rfl⟩ := ha
      simpa using not_le.mpr (hpos t ht)
    simp [profitFactorOf, hne, hfil]
  · intro hne hpos
    have hfil : ((trades.map (·.pnlPct)).filter (fun p => p ≤ 0)) = [] := by
      rw [List.filter_eq_nil_iff]
      intro a ha
      simp only [List.mem_map] at ha
      obtain ⟨t, ht, rfl⟩ := ha
      simpa using not_le.mpr (hpos t ht)
    simp [payoffRatioOf, avgLossPct, hne, hfil]
  · intro returns h
    simp [sharpeOf, h]
  · intro h
    have hzero : downsideStdOf (dailyReturns (eqc.map (·.2))) tdpy = 0 := by
      rcases h with h | h
      · simp [downsideStdOf, h]
      · simp [downsideStdOf, h]
    simp [sortinoOf, hzero]
  · intro h
    simp [calmarOf, h]

/-- Witness for C9: a flat equity curve [100, 100, 100] and a one-trade
winning ledger hit every degenerate branch at once. -/
theorem claim_C9_witness :
    profitFactorOf [⟨5, 1/20⟩] = .inf ∧
    payoffRatioOf [⟨5, 1/20⟩] = .inf ∧
    sharpeOf (dailyReturns [100, 100, 100]) 0 256 = 0 ∧
    sortinoOf [((0:ℤ), (100:ℚ)), (1, 100), (2, 100)] 256 = 0 ∧
    calmarOf [((0:ℤ), (100:ℚ)), (1, 100), (2, 100)] 256 = 0 := by
  have h := claim_C9 [((0:ℤ), (100:ℚ)), (1, 100), (2, 100)] [⟨5, 1/20⟩] 0 256
  refine ⟨h.1 (by simp) ?_, h.2.1 (by simp) ?_, ?_, ?_, ?_⟩
  · intro t ht
    simp only [List.mem_singleton] at ht
    norm_num [ht]
  · intro t ht
    simp only [List.mem_singleton] at ht
    norm_num [ht]
  · exact h.2.2.1 (dailyReturns [100, 100, 100])
      (by norm_num [dailyReturns, sampleVar, mean])
  · refine h.2.2.2.1 (Or.inl ?_)
    norm_num [dailyReturns, List.filter]
  · refine h.2.2.2.2 ?_
    norm_num [maxDrawdown, drawdownSeries, drawdownAux]

/-! ## Claim C8: CAGR -/

/-- Claim C8 (amended): the CAGR reported by the metrics engine uses the
year count (number of daily returns) / trading_days_per_year — an
observation-count proxy, not the calendar-date span of the series — it is
-100% whenever the starting or the ending equity is nonpositive, and for a
series of at least two observations with positive starting and ending
equity it equals (end / start) ^ (trading_days_per_year / (n - 1)) - 1. -/
theorem claim_C8 (eqc : List (ℤ × ℚ)) (tdpy : ℚ) (h2 : 2 ≤ eqc.length)
    (htd : 0 < tdpy) :
    ((eqc.map (·.2)).headD 0 ≤ 0 ∨ (eqc.map (·.2)).getLastD 0 ≤ 0 →
      cagrOf eqc tdpy = -1) ∧
    (0 < (eqc.map (·.2)).headD 0 → 0 < (eqc.map (·.2)).getLastD 0 →
      cagrOf eqc tdpy =
        Real.rpow
          (((eqc.map (·.2)).getLastD 0 / (eqc.map (·.2)).headD 0 : ℚ) : ℝ)
          ((tdpy / ((eqc.length : ℚ) - 1) : ℚ) : ℝ) - 1) := by
  have hlen : (dailyReturns (eqc.map (·.2))).length = eqc.length - 1 := by
    simp [dailyReturns, List.length_zip]
  constructor
  · intro h
    have hng : ¬ (0 < (((dailyReturns (eqc.map (·.2))).length : ℚ) / tdpy) ∧
        0 < (eqc.map (·.2)).getLastD 0 ∧ 0 < (eqc.map (·.2)).headD 0) := by
      rcases h with h | h
      · exact fun hc => absurd hc.2.2 (not_lt.mpr h)
      · exact fun hc => absurd hc.2.1 (not_lt.mpr h)
    simp only [cagrOf]
    rw [if_neg hng]
  · intro hfirst hlast
    have hn1 : (1:ℕ) ≤ eqc.length := le_trans (by norm_num) h2
    have hcast : (((eqc.length - 1 : ℕ)) : ℚ) = (eqc.length : ℚ) - 1 := by
      push_cast [Nat.cast_sub hn1]
      ring
    have hpos : 0 < (((dailyReturns (eqc.map (·.2))).length : ℚ) / tdpy) := by
      rw [hlen, hcast]
      apply div_pos _ htd
      have : (2:ℚ) ≤ (eqc.length : ℚ) := by exact_mod_cast h2
      linarith
    simp only [cagrOf]
    rw [if_pos ⟨hpos, hlast, hfirst⟩, hlen, hcast]
    have : (1 : ℚ) / ((((eqc.length : ℚ) - 1)) / tdpy)
        = tdpy / ((eqc.length : ℚ) - 1) := by
      rw [one_div, inv_div]
    rw [this]

/-- Counterexample for C8 as stated: the equity series [(day 0, 100),
(day 365, 200)] spans exactly one calendar year, so the claim's
calendar-span formula gives (200/100)^(1/1) - 1 = 1; the code ignores the
dates and uses (number of daily returns)/256 = 1/256 years, yielding
2^256 - 1. -/
theorem claim_C8_counterexample :
    cagrOf [((0:ℤ), (100:ℚ)), (365, 200)] 256 = (2:ℝ) ^ (256:ℕ) - 1 ∧
    (2:ℝ) ^ (256:ℕ) - 1 ≠ Real.rpow 2 ((365:ℝ) / 365) - 1 := by
  constructor
  · simp only [cagrOf, dailyReturns, List.map_cons, List.map_nil]
    rw [if_pos (by norm_num)]
    have hv : ((200 / 100 : ℚ) : ℝ) = 2 := by norm_num
    have he : ((1 / (((List.map (fun p => p.2 / p.1 - 1)
        ([(100:ℚ)].zip [(200:ℚ)])).length : ℚ) / 256) : ℚ) : ℝ)
        = ((256:ℕ) : ℝ) := by norm_num [List.zip]
    show ((200 / 100 : ℚ) : ℝ) ^ ((_ : ℚ) : ℝ) - 1 = _
    rw [hv]
    norm_num [List.zip, List.zipWith]
  · have h1 : Real.rpow 2 ((365:ℝ) / 365) = 2 := by
      rw [show (365:ℝ)/365 = 1 by norm_num]
      exact Real.rpow_one 2
    rw [h1]
    have h2 : (2:ℝ) ^ (1:ℕ) < 2 ^ (256:ℕ) :=
      pow_lt_pow_right₀ one_lt_two (by norm_num)
    simp only [pow_one] at h2
    intro hc
    have : (2:ℝ) ^ (256:ℕ) = 2 := by linarith [sub_left_injective.eq_iff.mp hc]
    linarith

/-- Witness for C8: the two-point series [(0, 100), (1, 200)] with 256
trading days per year. -/
theorem claim_C8_witness :
    cagrOf [((0:ℤ), (100:ℚ)), (1, 200)] 256 =
      Real.rpow (((200:ℚ) / 100 : ℚ) : ℝ) (((256:ℚ) / (2 - 1) : ℚ) : ℝ) - 1 := by
  have h := (claim_C8 [((0:ℤ), (100:ℚ)), (1, 200)] 256 (by norm_num)
    (by norm_num)).2 (by norm_num) (by norm_num)
  simpa using h

/-! ## Claim C5: drawdown invariants -/

theorem drawdownAux_sndZero (l : List (ℤ × ℚ)) :
    List.Chain' (fun a b : ℤ × ℚ => a.2 ≤ b.2) l →
    ∀ m : ℚ, (∀ x ∈ l.head?, m ≤ x.2) →
    ∀ y ∈ drawdownAux l m, y.2 = 0 := by
  induction l with
  | nil => intro _ m _ y hy; simp [drawdownAux] at hy
  | cons a rest ih =>
    intro hch m hm y hy
    obtain ⟨hhd, hch'⟩ := List.chain'_cons'.mp hch
    have hme : m ≤ a.2 := hm a (by simp)
    have hmax : max m a.2 = a.2 := max_eq_right hme
    rcases a with ⟨d, e⟩
    simp only [drawdownAux, hmax, List.mem_cons] at hy
    rcases hy with rfl | hy
    · simp
    · exact ih hch' e (fun x hx => hhd x hx) y hy

theorem drawdownSeries_sndZero (l : List (ℤ × ℚ))
    (hmono : List.Chain' (fun a b : ℤ × ℚ => a.2 ≤ b.2) l) :
    ∀ y ∈ drawdownSeries l, y.2 = 0 := by
  cases l with
  | nil => intro y hy; simp [drawdownSeries] at hy
  | cons a rest =>
    intro y hy
    rcases a with ⟨d, e⟩
    exact drawdownAux_sndZero _ hmono e (by simp) y hy

theorem foldl_min_zero (l : List ℚ) :
    ∀ v, v = 0 → (∀ x ∈ l, x = 0) → l.foldl min v = 0 := by
  induction l with
  | nil => intro v hv _; simpa using hv
  | cons a t ih =>
    intro v hv h
    have ha : a = 0 := h a (by simp)
    exact ih (min v a) (by simp [hv, ha]) fun x hx => h x (by simp [hx])

theorem runsAux_eq_nil_of_nonneg (dd : List (ℤ × ℚ))
    (h : ∀ x ∈ dd, ¬ x.2 < 0) : runsAux dd [] = [] := by
  induction dd with
  | nil => rfl
  | cons a t ih =>
    have ha : ¬ a.2 < 0 := h a (by simp)
    simp only [runsAux, ha, if_false, List.isEmpty_nil, if_true, reduceIte]
    exact ih fun x hx => h x (by simp [hx])

/-- Claim C5 (amended): for a monotonically non-decreasing positive equity
series, the maximum drawdown and the maximum drawdown duration are both 0;
for the single-trough series [100, 90, 80, 90, 100] on five consecutive
daily dates the maximum drawdown is -20% and the reported duration is the
span from the FIRST IN-DRAWDOWN day (day 1, the day after the peak) to the
LAST IN-DRAWDOWN day (day 3, the day before recovery): 3 - 1 = 2 calendar
days — not the peak-to-recovery span. -/
theorem claim_C5 (eqc : List (ℤ × ℚ))
    (_hpos : ∀ x ∈ eqc, 0 < x.2)
    (hmono : List.Chain' (fun a b : ℤ × ℚ => a.2 ≤ b.2) eqc) :
    (maxDrawdown eqc = 0 ∧ maxDrawdownDuration (drawdownSeries eqc) = 0) ∧
    maxDrawdown [((0:ℤ), (100:ℚ)), (1, 90), (2, 80), (3, 90), (4, 100)]
      = -(1/5) ∧
    maxDrawdownDuration (drawdownSeries
      [((0:ℤ), (100:ℚ)), (1, 90), (2, 80), (3, 90), (4, 100)]) = 3 - 1 := by
  refine ⟨⟨?_, ?_⟩, ?_, ?_⟩
  · have hz := drawdownSeries_sndZero eqc hmono
    rw [maxDrawdown]
    cases hs : (drawdownSeries eqc).map (·.2) with
    | nil => rfl
    | cons v vs =>
      have hall : ∀ x ∈ (drawdownSeries eqc).map (·.2), x = 0 := by
        intro x hx
        simp only [List.mem_map] at hx
        obtain ⟨y, hy, rfl⟩ := hx
        exact hz y hy
      rw [hs] at hall
      exact foldl_min_zero vs v (hall v (by simp))
        (fun x hx => hall x (by simp [hx]))
  · have hz := drawdownSeries_sndZero eqc hmono
    have hnn : ∀ x ∈ drawdownSeries eqc, ¬ x.2 < 0 := fun x hx => by
      rw [hz x hx]
      exact lt_irrefl 0
    rw [maxDrawdownDuration, ddRuns, runsAux_eq_nil_of_nonneg _ hnn]
    rfl
  · norm_num [maxDrawdown, drawdownSeries, drawdownAux]
  · norm_num [maxDrawdownDuration, drawdownSeries, drawdownAux, ddRuns,
      runsAux, runDuration]

/-- Counterexample for C5 as stated: for the series [100,90,80,90,100] on
days 0..4, the peak's date is day 0 and equity first returns to a
non-negative-drawdown day on day 4, so the claim's "peak to recovery" span
is 4 calendar days; the code reports 2 (first to last in-drawdown day). -/
theorem claim_C5_counterexample :
    maxDrawdownDuration (drawdownSeries
      [((0:ℤ), (100:ℚ)), (1, 90), (2, 80), (3, 90), (4, 100)]) ≠ 4 - 0 := by
  norm_num [maxDrawdownDuration, drawdownSeries, drawdownAux, ddRuns,
    runsAux, runDuration]

/-- Witness for C5: a concrete increasing positive series. -/
theorem claim_C5_witness :
    (maxDrawdown [((0:ℤ), (100:ℚ)), (1, 100), (2, 110)] = 0 ∧
      maxDrawdownDuration (drawdownSeries
        [((0:ℤ), (100:ℚ)), (1, 100), (2, 110)]) = 0) ∧
    maxDrawdown [((0:ℤ), (100:ℚ)), (1, 90), (2, 80), (3, 90), (4, 100)]
      = -(1/5) ∧
    maxDrawdownDuration (drawdownSeries
      [((0:ℤ), (100:ℚ)), (1, 90), (2, 80), (3, 90), (4, 100)]) = 3 - 1 :=
  claim_C5 [((0:ℤ), (100:ℚ)), (1, 100), (2, 110)]
    (by norm_num) (by norm_num [List.chain'_cons])

/-! ## Claim C2: capital conservation -/

/-- Well-formedness plus ledger equations carried through a run: the
position keys are distinct (a Python dict cannot hold duplicates), the
capital ledger equation holds, and every emitted trade satisfies its field
identities. -/
def engineInvariant (c : Cfg) (init : ℚ) (st : EngineState) : Prop :=
  (st.positions.map Prod.fst).Nodup ∧ capitalInvariant c init st ∧
  ∀ t ∈ st.trades, tradeConsistent c t

theorem openEntryCosts_alRemove (c : Cfg) (l : List (String × Position))
    (k : String) (pos : Position) (h : alGet l k = some pos) :
    openEntryCosts c (alRemove l k) = openEntryCosts c l - entryCostOf c pos := by
  induction l with
  | nil => simp [alGet] at h
  | cons e rest ih =>
    by_cases he : e.1 = k
    · simp only [alGet, he, if_true, reduceIte, Option.some.injEq] at h
      subst h
      simp only [alRemove, he, if_true, reduceIte, openEntryCosts,
        List.map_cons, List.sum_cons]
      ring
    · simp only [alGet, he, reduceIte] at h
      simp only [alRemove, he, reduceIte, openEntryCosts, List.map_cons,
        List.sum_cons]
      have := ih h
      simp only [openEntryCosts] at this
      rw [this]
      ring

theorem openEntryCosts_alSet_none (c : Cfg) (l : List (String × Position))
    (k : String) (v : Position) (h : alGet l k = none) :
    openEntryCosts c (alSet l k v) = openEntryCosts c l + entryCostOf c v := by
  rw [alSet_eq_append l k v h]
  simp [openEntryCosts]

theorem engineInvariant_openPosition (c : Cfg) (init : ℚ) (pv : ℚ)
    (st : EngineState) (inst : String) (dir : ℤ) (price : ℚ) (d : ℤ)
    (atr : ℚ) (h : engineInvariant c init st)
    (hk : alGet st.positions inst = none) :
    engineInvariant c init (openPosition c pv st inst dir price d atr) := by
  rw [openPosition]
  by_cases hc : computeContracts c st.capital atr pv ≤ 0
  · rw [if_pos hc]
    exact h
  · obtain ⟨hnd, hcap, htr⟩ := h
    simp only [hc, reduceIte]
    refine ⟨keys_nodup_alSet_of_none _ _ _ hnd hk, ?_, htr⟩
    rw [capitalInvariant] at hcap ⊢
    simp only
    rw [openEntryCosts_alSet_none c _ _ _ hk]
    rw [entryCostOf]
    simp only
    rw [hcap]
    ring

theorem alGet_closePosition_self (c : Cfg) (st : EngineState) (inst : String)
    (price : ℚ) (d : ℤ) (hnd : (st.positions.map Prod.fst).Nodup) :
    alGet (closePosition c st inst price d).positions inst = none := by
  cases hget : alGet st.positions inst with
  | none => simp only [closePosition, hget]
  | some pos =>
    simp only [closePosition, hget]
    exact alGet_alRemove_self _ _ hnd

theorem closePosition_capital_positions (c : Cfg) (st : EngineState)
    (inst : String) (price : ℚ) (d : ℤ) :
    (closePosition c st inst price d).equityHistory = st.equityHistory := by
  cases hget : alGet st.positions inst with
  | none => simp [closePosition, hget]
  | some pos => simp [closePosition, hget]

theorem engineInvariant_closePosition (c : Cfg) (init : ℚ)
    (st : EngineState) (inst : String) (price : ℚ) (d : ℤ)
    (h : engineInvariant c init st) :
    engineInvariant c init (closePosition c st inst price d) := by
  obtain ⟨hnd, hcap, htr⟩ := h
  cases hget : alGet st.positions inst with
  | none => simpa [closePosition, hget] using ⟨hnd, hcap, htr⟩
  | some pos =>
    simp only [closePosition, hget]
    refine ⟨keys_nodup_alRemove _ _ hnd, ?_, ?_⟩
    · rw [capitalInvariant] at hcap ⊢
      simp only [List.map_append, List.sum_append, List.map_cons,
        List.map_nil, List.sum_cons, List.sum_nil]
      rw [openEntryCosts_alRemove c _ _ _ hget, hcap]
      simp only [tradeEntryCost, tradeExitCost, entryCostOf]
      ring
    · intro t ht
      simp only [List.mem_append, List.mem_singleton] at ht
      rcases ht with ht | rfl
      · exact htr t ht
      · constructor
        · simp [tradeExitCost]
        · simp [tradeEntryCost, tradeExitCost]

theorem updateTrailingPos_entryCost (c : Cfg) (p : Position) (r : Row) :
    entryCostOf c (updateTrailingPos p r) = entryCostOf c p := by
  rw [updateTrailingPos]
  split <;> rfl

theorem updateTrailing_keys (data : List (String × InstrData)) (d : ℤ)
    (st : EngineState) :
    (updateTrailing data d st).positions.map Prod.fst
      = st.positions.map Prod.fst := by
  rw [updateTrailing]
  simp only [List.map_map]
  apply List.map_congr_left
  intro e _
  simp only [Function.comp_apply]
  rcases h1 : alGet data e.1 with _ | df
  · rfl
  · rcases h2 : rowAt df d with _ | r
    · simp [h2]
    · simp [h2]

theorem updateTrailing_openEntryCosts (c : Cfg)
    (data : List (String × InstrData)) (d : ℤ) (st : EngineState) :
    openEntryCosts c (updateTrailing data d st).positions
      = openEntryCosts c st.positions := by
  rw [updateTrailing, openEntryCosts, openEntryCosts]
  simp only [List.map_map]
  apply list_sum_map_congr
  intro e _
  simp only [Function.comp_apply]
  rcases h1 : alGet data e.1 with _ | df
  · rfl
  · rcases h2 : rowAt df d with _ | r
    · simp [h2]
    · simp [h2, updateTrailingPos_entryCost]

theorem engineInvariant_updateTrailing (c : Cfg) (init : ℚ)
    (data : List (String × InstrData)) (d : ℤ) (st : EngineState)
    (h : engineInvariant c init st) :
    engineInvariant c init (updateTrailing data d st) := by
  obtain ⟨hnd, hcap, htr⟩ := h
  refine ⟨by rw [updateTrailing_keys]; exact hnd, ?_, htr⟩
  rw [capitalInvariant] at hcap ⊢
  rw [updateTrailing_openEntryCosts]
  exact hcap

theorem engineInvariant_processInstrument (c : Cfg) (init : ℚ)
    (strat : Strategy) (pv : String → ℚ) (inst : String) (df : InstrData)
    (d : ℤ) (st : EngineState) (h : engineInvariant c init st) :
    engineInvariant c init (processInstrument c strat pv inst df d st) := by
  rw [processInstrument]
  cases hrow : rowAt df d with
  | none => exact h
  | some row =>
    simp only
    split
    · exact h
    · split
      · exact h
      · rename_i nd nr heq
        split
        · cases hget : alGet st.positions inst with
          | none =>
            simp only [hget]
            exact engineInvariant_openPosition _ _ _ _ _ _ _ _ _ h hget
          | some pos =>
            simp only [hget]
            refine engineInvariant_openPosition _ _ _ _ _ _ _ _ _
              (engineInvariant_closePosition _ _ _ _ _ _ h) ?_
            exact alGet_closePosition_self _ _ _ _ _ h.1
        · cases hget : alGet st.positions inst with
          | none => simpa [hget] using h
          | some pos =>
            simp only [hget]
            exact engineInvariant_closePosition _ _ _ _ _ _ h

theorem engineInvariant_stepDate (c : Cfg) (init : ℚ) (strat : Strategy)
    (pv : String → ℚ) (data : List (String × InstrData)) (st : EngineState)
    (d : ℤ) (h : engineInvariant c init st) :
    engineInvariant c init (stepDate c strat pv data st d) := by
  rw [stepDate]
  apply engineInvariant_updateTrailing
  apply foldl_preserve _ (engineInvariant c init) data
    (fun s e _ hs => engineInvariant_processInstrument c init strat pv
      e.1 e.2 d s hs)
  exact ⟨h.1, h.2.1, h.2.2⟩

theorem engineInvariant_replay (c : Cfg) (init : ℚ) (st : EngineState)
    (h : engineInvariant c init st) :
    replayLedger init st.trades
      = st.capital + openEntryCosts c st.positions := by
  obtain ⟨-, hcap, htr⟩ := h
  have hfold : replayLedger init st.trades
      = init + (st.trades.map
          (fun t => t.pnl - (t.costsTotal - (t.grossPnl - t.pnl)))).sum := by
    have hfun : (fun (cap : ℚ) (t : Trade) =>
          cap - (t.costsTotal - (t.grossPnl - t.pnl)) + t.pnl)
        = fun (cap : ℚ) (t : Trade) =>
            cap + (t.pnl - (t.costsTotal - (t.grossPnl - t.pnl))) := by
      funext cap t
      ring
    rw [replayLedger, hfun, foldl_add_eq_sum]
  have hsum : (st.trades.map
      (fun t => t.pnl - (t.costsTotal - (t.grossPnl - t.pnl)))).sum
      = (st.trades.map (fun t => t.grossPnl - tradeExitCost c t)).sum
        - (st.trades.map (tradeEntryCost c)).sum := by
    rw [← list_sum_map_sub]
    apply list_sum_map_congr
    intro t ht
    obtain ⟨hp, hc⟩ := htr t ht
    rw [hp, hc]
    ring
  rw [hfold, hsum, capitalInvariant] at *
  rw [hcap]
  ring

/-- Claim C2 (amended): the freshly constructed engine satisfies the capital
ledger equation (capital = initial capital - entry costs of all positions
opened so far + sum over closed trades of (gross P&L - exit cost)), every
day of the simulation preserves it together with the per-trade identities
pnl = gross P&L - exit cost and costs = entry cost + exit cost, the full run
satisfies it, and replaying the ledger's entry costs and net P&Ls from the
initial capital reproduces the final cash capital PLUS the entry costs of
the positions still open — exactly the final cash capital only when no
position remains open at the end. -/
theorem claim_C2 (c : Cfg) (strat : Strategy) (pv : String → ℚ)
    (data : List (String × InstrData)) (init : ℚ) :
    engineInvariant c init (initState init) ∧
    (∀ st d, engineInvariant c init st →
      engineInvariant c init (stepDate c strat pv data st d)) ∧
    (∀ st, engineInvariant c init st →
      replayLedger init st.trades
        = st.capital + openEntryCosts c st.positions) ∧
    engineInvariant c init (run c strat pv data init) := by
  have hinit : engineInvariant c init (initState init) := by
    refine ⟨by simp [initState], ?_, by simp [initState]⟩
    simp [capitalInvariant, initState, openEntryCosts]
  refine ⟨hinit, fun st d h => engineInvariant_stepDate c init strat pv
    data st d h, fun st h => engineInvariant_replay c init st h, ?_⟩
  rw [run]
  have hfold : engineInvariant c init
      ((sortedUnionDates data).foldl (stepDate c strat pv data)
        (initState init)) :=
    foldl_preserve _ (engineInvariant c init) _
      (fun s e _ hs => engineInvariant_stepDate c init strat pv data s e hs)
      _ hinit
  cases (sortedUnionDates data).getLast? with
  | none => exact hfold
  | some dLast =>
    cases ((sortedUnionDates data).foldl (stepDate c strat pv data)
        (initState init)).equityHistory.getLast? with
    | none => exact hfold
    | some lastObs => exact ⟨hfold.1, hfold.2.1, hfold.2.2⟩

/-- Counterexample for C2 as stated: a two-day run that opens a position on
day 0 (executed at day 1's open) and never closes it.  The ledger is empty,
so replaying it returns the initial capital 1000, while the final cash
capital is 800 (the entry cost 200 was deducted at open).  Replaying the
ledger does not reproduce the final cash capital. -/
theorem claim_C2_counterexample :
    (run ⟨1, 1, 0, 1/10, false⟩ (fun _ _ _ _ => 1) (fun _ => 1)
      [("A", [((0:ℤ), (⟨10, 11, 9, 10, 1⟩ : Row)),
              (1, (⟨10, 12, 9, 11, 1⟩ : Row))])] 1000).trades = [] ∧
    replayLedger 1000
        (run ⟨1, 1, 0, 1/10, false⟩ (fun _ _ _ _ => 1) (fun _ => 1)
          [("A", [((0:ℤ), (⟨10, 11, 9, 10, 1⟩ : Row)),
                  (1, (⟨10, 12, 9, 11, 1⟩ : Row))])] 1000).trades
      ≠ (run ⟨1, 1, 0, 1/10, false⟩ (fun _ _ _ _ => 1) (fun _ => 1)
          [("A", [((0:ℤ), (⟨10, 11, 9, 10, 1⟩ : Row)),
                  (1, (⟨10, 12, 9, 11, 1⟩ : Row))])] 1000).capital := by
  constructor <;>
    norm_num [run, sortedUnionDates, List.insertionSort, List.orderedInsert,
      stepDate, processInstrument, currentDirOf, markToMarket,
      updateTrailing, updateTrailingPos, rowAt, nextEntry, alGet, alSet,
      alRemove, openPosition, closePosition, computeContracts, truncQ,
      calcCosts, Cfg.totalPerContract, initState, replayLedger,
      Int.floor_eq_iff]

/-- Witness for C2: the invariant holds at the freshly initialised state and
replaying an empty ledger returns the initial capital. -/
theorem claim_C2_witness :
    replayLedger 1000 (initState 1000).trades
      = (initState 1000).capital
        + openEntryCosts ⟨1, 1, 0, 1/10, false⟩ (initState 1000).positions := by
  have h := claim_C2 ⟨1, 1, 0, 1/10, false⟩ (fun _ _ _ _ => 1)
    (fun _ => 1) [] 1000
  exact h.2.2.1 (initState 1000) h.1

/-! ## Claim C1: anti-look-ahead execution -/

theorem nextEntry_mem (df : InstrData) (d : ℤ) (e : ℤ × Row)
    (h : nextEntry df d = some e) : e ∈ df := by
  induction df with
  | nil => simp [nextEntry] at h
  | cons f rest ih =>
    rw [nextEntry] at h
    by_cases hf : f.1 = d
    · rw [if_pos hf] at h
      exact List.mem_cons_of_mem f (List.mem_of_mem_head? h)
    · rw [if_neg hf] at h
      exact List.mem_cons_of_mem f (ih h)

theorem nextEntry_lt (df : InstrData) (d : ℤ) (nd : ℤ) (nr : Row)
    (hs : (df.map Prod.fst).Chain' (· < ·))
    (h : nextEntry df d = some (nd, nr)) : d < nd := by
  induction df with
  | nil => simp [nextEntry] at h
  | cons f rest ih =>
    rw [nextEntry] at h
    by_cases hf : f.1 = d
    · rw [if_pos hf] at h
      cases rest with
      | nil => simp at h
      | cons g t =>
        simp only [List.head?, Option.some.injEq] at h
        have hlt : f.1 < g.1 := by
          simp only [List.map_cons, List.chain'_cons] at hs
          exact hs.1
        rw [← hf, ← show g.1 = nd by rw [h]]
        exact hlt
    · rw [if_neg hf] at h
      exact ih (by simpa [List.map_cons] using hs.tail) h

theorem openPosition_trades (c : Cfg) (pv : ℚ) (st : EngineState)
    (inst : String) (dir : ℤ) (price : ℚ) (d : ℤ) (atr : ℚ) :
    (openPosition c pv st inst dir price d atr).trades = st.trades := by
  rw [openPosition]
  split <;> rfl

/-- Claim C1 (amended): for an instrument whose dates are strictly
increasing, on any date where the strategy's desired direction differs from
the current direction: if no date follows in the instrument's own calendar
the transition lapses silently with no state change; if a next date exists
it is strictly after the current date and the execution (closing the open
position, then opening when the desired direction is nonzero) is performed
at that next date's Open — any close emits a trade with exit date and exit
price from the next date — EXCEPT that when the instrument is flat and the
sizing computation yields a nonpositive quantity, no trade happens at all
even though a next date exists (the claim's "if and only if" fails there,
see the counterexample). -/
theorem claim_C1 (c : Cfg) (strat : Strategy) (pv : String → ℚ)
    (inst : String) (df : InstrData) (d : ℤ) (st : EngineState) (row : Row)
    (hs : (df.map Prod.fst).Chain' (· < ·))
    (hrow : rowAt df d = some row)
    (hdiff : strat d row inst st.positions ≠ currentDirOf st inst) :
    (nextEntry df d = none →
      processInstrument c strat pv inst df d st = st) ∧
    (∀ nd nr, nextEntry df d = some (nd, nr) →
      d < nd ∧
      processInstrument c strat pv inst df d st
        = (let sig := strat d row inst st.positions
           let st1 := match alGet st.positions inst with
             | some _ => closePosition c st inst nr.openP nd
             | none => st
           if sig ≠ 0 then
             openPosition c (pv inst) st1 inst sig nr.openP nd row.atrV
           else st1) ∧
      (∀ pos, alGet st.positions inst = some pos →
        ∃ t, (processInstrument c strat pv inst df d st).trades
            = st.trades ++ [t] ∧ t.exitPrice = nr.openP ∧ t.exitDate = nd ∧
            t.instrument = pos.instrument) ∧
      (alGet st.positions inst = none →
        computeContracts c st.capital row.atrV (pv inst) ≤ 0 →
        processInstrument c strat pv inst df d st = st)) := by
  constructor
  · intro hne
    simp only [processInstrument, hrow, if_neg hdiff, hne]
  · intro nd nr hne
    refine ⟨nextEntry_lt df d nd nr hs hne, ?_, ?_, ?_⟩
    · simp only [processInstrument, hrow, if_neg hdiff, hne]
    · intro pos hpos
      simp only [processInstrument, hrow, if_neg hdiff, hne, hpos]
      by_cases hz : strat d row inst st.positions ≠ 0
      · rw [if_pos hz, openPosition_trades]
        simp only [closePosition, hpos]
        exact ⟨_, rfl, rfl, rfl, rfl⟩
      · rw [if_neg hz]
        simp only [closePosition, hpos]
        exact ⟨_, rfl, rfl, rfl, rfl⟩
    · intro hflat hsz
      have hz : strat d row inst st.positions ≠ 0 := by
        simpa [currentDirOf, hflat] using hdiff
      simp only [processInstrument, hrow, if_neg hdiff, hne, hflat,
        if_pos hz]
      rw [openPosition, if_pos hsz]

/-- Rows for the C1 scenario: day 0 with a positive (resp. zero) ATR and
day 1. -/
def rowD0 : Row := ⟨10, 11, 9, 10, 1⟩

/-- Day-0 row with ATR 0 (warm-up). -/
def rowD0z : Row := ⟨10, 11, 9, 10, 0⟩

/-- Day-1 row. -/
def rowD1 : Row := ⟨10, 12, 9, 11, 1⟩

/-- Counterexample for C1 as stated: with a zero ATR on the decision date,
the desired direction (+1) differs from the current direction (flat, 0) and
a next date exists in the instrument's calendar, yet NO trade is executed —
the sizing yields 0 contracts, the state is completely unchanged — so
"a trade is executed if and only if a date strictly after J exists" is
false in the only-if-to-if direction. -/
theorem claim_C1_counterexample :
    (nextEntry [((0:ℤ), rowD0z), (1, rowD1)] 0).isSome = true ∧
    (1:ℤ) ≠ currentDirOf (initState 1000) "A" ∧
    processInstrument ⟨1, 1, 0, 1/10, false⟩ (fun _ _ _ _ => 1)
      (fun _ => 1) "A" [((0:ℤ), rowD0z), (1, rowD1)] 0 (initState 1000)
      = initState 1000 := by
  refine ⟨by norm_num [nextEntry], by norm_num [currentDirOf, alGet,
    initState], ?_⟩
  norm_num [processInstrument, currentDirOf, rowAt, nextEntry, alGet,
    initState, openPosition, computeContracts, rowD0z, rowD1]

/-- Witness for C1: the same scenario with a positive ATR opens a long at
day 1's Open price following the day-0 decision. -/
theorem claim_C1_witness :
    (0:ℤ) < 1 ∧
    processInstrument ⟨1, 1, 0, 1/10, false⟩ (fun _ _ _ _ => 1)
      (fun _ => 1) "A" [((0:ℤ), rowD0), (1, rowD1)] 0 (initState 1000)
      = openPosition ⟨1, 1, 0, 1/10, false⟩ 1 (initState 1000) "A" 1
          rowD1.openP 1 rowD0.atrV := by
  have h := (claim_C1 ⟨1, 1, 0, 1/10, false⟩ (fun _ _ _ _ => 1)
    (fun _ => 1) "A" [((0:ℤ), rowD0), (1, rowD1)] 0 (initState 1000) rowD0
    (by norm_num [List.chain'_cons]) (by norm_num [rowAt])
    (by norm_num [currentDirOf, alGet, initState])).2 1 rowD1
    (by norm_num [nextEntry])
  refine ⟨h.1, ?_⟩
  have he := h.2.1
  simpa [initState, alGet] using he

/-! ## Claim C10: the trailing update covers a newly opened position -/

theorem closePosition_alGet_other (c : Cfg) (st : EngineState) (k : String)
    (price : ℚ) (d : ℤ) (inst : String) (h : k ≠ inst) :
    alGet (closePosition c st k price d).positions inst
      = alGet st.positions inst := by
  cases hget : alGet st.positions k with
  | none => simp [closePosition, hget]
  | some pos =>
    simp only [closePosition, hget]
    exact alGet_alRemove_other _ _ _ h

theorem openPosition_alGet_other (c : Cfg) (pv : ℚ) (st : EngineState)
    (k : String) (dir : ℤ) (price : ℚ) (d : ℤ) (atr : ℚ) (inst : String)
    (h : k ≠ inst) :
    alGet (openPosition c pv st k dir price d atr).positions inst
      = alGet st.positions inst := by
  rw [openPosition]
  split
  · rfl
  · exact alGet_alSet_other _ _ _ _ h

theorem processInstrument_alGet_other (c : Cfg) (strat : Strategy)
    (pv : String → ℚ) (k : String) (df : InstrData) (d : ℤ)
    (s : EngineState) (inst : String) (h : k ≠ inst) :
    alGet (processInstrument c strat pv k df d s).positions inst
      = alGet s.positions inst := by
  rw [processInstrument]
  rcases hrow : rowAt df d with _ | row
  · rfl
  · simp only
    split
    · rfl
    · split
      · rfl
      · rename_i nd nr heq
        split
        · rcases hget : alGet s.positions k with _ | pos
          · simp only [hget]
            exact openPosition_alGet_other _ _ _ _ _ _ _ _ _ h
          · simp only [hget]
            rw [openPosition_alGet_other _ _ _ _ _ _ _ _ _ h]
            exact closePosition_alGet_other _ _ _ _ _ _ h
        · rcases hget : alGet s.positions k with _ | pos
          · simp [hget]
          · simp only [hget]
            exact closePosition_alGet_other _ _ _ _ _ _ h

theorem alGet_append_of_ne {α : Type} (pre rest : List (String × α))
    (k : String) (h : ∀ e ∈ pre, e.1 ≠ k) :
    alGet (pre ++ rest) k = alGet rest k := by
  induction pre with
  | nil => rfl
  | cons e t ih =>
    have he : e.1 ≠ k := h e (by simp)
    simp only [List.cons_append, alGet, he, reduceIte]
    exact ih fun x hx => h x (by simp [hx])

theorem alGet_posMap_updateTrailing (data : List (String × InstrData))
    (d : ℤ) (ps : List (String × Position)) (inst : String) :
    alGet (ps.map (fun e =>
      match alGet data e.1 with
      | none => e
      | some df =>
        match rowAt df d with
        | none => e
        | some r => (e.1, updateTrailingPos e.2 r))) inst
    = (alGet ps inst).map (fun pos =>
        match alGet data inst with
        | none => pos
        | some df =>
          match rowAt df d with
          | none => pos
          | some r => updateTrailingPos pos r) := by
  induction ps with
  | nil => rfl
  | cons e rest ih =>
    by_cases he : e.1 = inst
    · rw [← he]
      rcases h1 : alGet data e.1 with _ | df
      · simp [alGet, h1]
      · rcases h2 : rowAt df d with _ | r
        · simp [alGet, h1, h2]
        · simp [alGet, h1, h2]
    · rcases h1 : alGet data e.1 with _ | df
      · simp only [List.map_cons, h1, alGet, he, reduceIte]
        exact ih
      · rcases h2 : rowAt df d with _ | r
        · simp only [List.map_cons, h1, h2, alGet, he, reduceIte]
          exact ih
        · simp only [List.map_cons, h1, h2, alGet, he, reduceIte]
          exact ih

/-- Claim C10: when a position is opened while processing global date J
(entry date and fill price from the next date in the instrument's
calendar), the new Position is already in the open-positions map during
date J's trailing update, so immediately after date J's step a long
position's peak is max(entry fill price, High of J) and a short position's
trough is min(entry fill price, Low of J). -/
theorem claim_C10 (c : Cfg) (strat : Strategy) (pv : String → ℚ)
    (pre post : List (String × InstrData)) (inst : String) (df : InstrData)
    (d nd : ℤ) (st : EngineState) (row nr : Row) (s1 : EngineState)
    (hpre : ∀ e ∈ pre, e.1 ≠ inst) (hpost : ∀ e ∈ post, e.1 ≠ inst)
    (hrow : rowAt df d = some row) (hnext : nextEntry df d = some (nd, nr))
    (hs1 : s1 = pre.foldl
      (fun s e => processInstrument c strat pv e.1 e.2 d s)
      { st with equityHistory := st.equityHistory
          ++ [(d, st.capital + markToMarket st.positions
                (pre ++ (inst, df) :: post) d)] })
    (sig : ℤ) (hsig : sig = strat d row inst s1.positions)
    (hdiff : sig ≠ currentDirOf s1 inst)
    (hctr : 0 < computeContracts c
      (match alGet s1.positions inst with
       | some _ => closePosition c s1 inst nr.openP nd
       | none => s1).capital row.atrV (pv inst)) :
    (sig = 1 → ∃ p : Position,
      alGet (stepDate c strat pv (pre ++ (inst, df) :: post) st d).positions
          inst = some p ∧
      p.entryPrice = nr.openP ∧ p.entryDate = nd ∧
      p.peakPrice = max nr.openP row.highP) ∧
    (sig = -1 → ∃ p : Position,
      alGet (stepDate c strat pv (pre ++ (inst, df) :: post) st d).positions
          inst = some p ∧
      p.entryPrice = nr.openP ∧ p.entryDate = nd ∧
      p.troughPrice = some (min nr.openP row.lowP)) := by
  have hstep : stepDate c strat pv (pre ++ (inst, df) :: post) st d
      = updateTrailing (pre ++ (inst, df) :: post) d
          (post.foldl (fun s e => processInstrument c strat pv e.1 e.2 d s)
            (processInstrument c strat pv inst df d s1)) := by
    rw [stepDate, hs1, List.foldl_append]
    rfl
  have hdata : alGet (pre ++ (inst, df) :: post) inst = some df := by
    rw [alGet_append_of_ne _ _ _ hpre]
    simp [alGet]
  have main : ∀ hz : sig ≠ 0, ∃ p : Position,
      alGet (stepDate c strat pv (pre ++ (inst, df) :: post) st d).positions
          inst = some p ∧
      p = updateTrailingPos
        { instrument := inst, direction := sig,
          contracts := computeContracts c
            (match alGet s1.positions inst with
             | some _ => closePosition c s1 inst nr.openP nd
             | none => s1).capital row.atrV (pv inst),
          entryPrice := nr.openP, entryDate := nd, pointValue := pv inst,
          entryAtr := row.atrV,
          peakPrice := if sig = 1 then nr.openP else 0,
          troughPrice := if sig = -1 then some nr.openP else none } row := by
    intro hz
    set newP : Position :=
      { instrument := inst, direction := sig,
        contracts := computeContracts c
          (match alGet s1.positions inst with
           | some _ => closePosition c s1 inst nr.openP nd
           | none => s1).capital row.atrV (pv inst),
        entryPrice := nr.openP, entryDate := nd, pointValue := pv inst,
        entryAtr := row.atrV,
        peakPrice := if sig = 1 then nr.openP else 0,
        troughPrice := if sig = -1 then some nr.openP else none } with hnewP
    have hs2 : processInstrument c strat pv inst df d s1
        = openPosition c (pv inst)
            (match alGet s1.positions inst with
             | some _ => closePosition c s1 inst nr.openP nd
             | none => s1) inst sig nr.openP nd row.atrV := by
      simp only [processInstrument, hrow, ← hsig, if_neg hdiff, hnext,
        if_pos hz]
    have hopen : alGet (processInstrument c strat pv inst df d s1).positions
        inst = some newP := by
      rw [hs2, openPosition, if_neg (not_le.mpr hctr)]
      exact alGet_alSet_self _ _ _
    have hfold : alGet ((post.foldl
        (fun s e => processInstrument c strat pv e.1 e.2 d s)
        (processInstrument c strat pv inst df d s1))).positions inst
        = some newP := by
      refine foldl_preserve _
        (fun s : EngineState => alGet s.positions inst = some newP)
        post ?_ _ hopen
      intro s e he hs
      rw [processInstrument_alGet_other _ _ _ _ _ _ _ _ (hpost e he)]
      exact hs
    rw [hstep, updateTrailing]
    refine ⟨_, ?_, rfl⟩
    rw [alGet_posMap_updateTrailing, hfold]
    simp only [hdata, hrow]
    rfl
  constructor
  · intro h1
    obtain ⟨p, hp, hpe⟩ := main (by rw [h1]; norm_num)
    refine ⟨p, hp, ?_, ?_, ?_⟩ <;>
      simp [hpe, updateTrailingPos, h1]
  · intro h1
    obtain ⟨p, hp, hpe⟩ := main (by rw [h1]; norm_num)
    refine ⟨p, hp, ?_, ?_, ?_⟩ <;>
      simp [hpe, updateTrailingPos, h1]

/-- Witness for C10: a single instrument whose strategy goes long on day 0;
the opened position (entry day 1 at day 1's Open) already carries
`peak = max(day-1 Open, day-0 High)` after day 0's step. -/
theorem claim_C10_witness :
    ∃ p : Position,
      alGet (stepDate ⟨1, 1, 0, 1/10, false⟩ (fun _ _ _ _ => 1)
          (fun _ => 1) [("A", [((0:ℤ), rowD0), (1, rowD1)])]
          (initState 1000) 0).positions "A" = some p ∧
      p.entryPrice = rowD1.openP ∧ p.entryDate = 1 ∧
      p.peakPrice = max rowD1.openP rowD0.highP := by
  have h := (claim_C10 ⟨1, 1, 0, 1/10, false⟩ (fun _ _ _ _ => 1)
    (fun _ => 1) [] [] "A" [((0:ℤ), rowD0), (1, rowD1)] 0 1
    (initState 1000) rowD0 rowD1 _ (by simp) (by simp)
    (by norm_num [rowAt]) (by norm_num [nextEntry])
    rfl 1 rfl
    (by norm_num [currentDirOf, alGet, initState])
    (by norm_num [computeContracts, truncQ, alGet, initState, rowD0,
      Int.floor_eq_iff])).1 rfl
  simpa using h

/-! ## Claim C6: equity records are pre-trade marks-to-market -/

theorem markToMarket_eq_mtmSpec (positions : List (String × Position))
    (data : List (String × InstrData)) (d : ℤ) :
    markToMarket positions data d = mtmSpec positions data d := by
  have aux : ∀ (ps : List (String × Position)) (a : ℚ),
      ps.foldl (fun acc e =>
        match alGet data e.1 with
        | none => acc
        | some df =>
          match rowAt df d with
          | none => acc
          | some r => acc + (r.closeP - e.2.entryPrice) * (e.2.direction : ℚ)
              * e.2.contracts * e.2.pointValue) a = a + mtmSpec ps data d := by
    intro ps
    induction ps with
    | nil => intro a; simp [mtmSpec]
    | cons e rest ih =>
      intro a
      rcases h1 : alGet data e.1 with _ | df
      · simp only [List.foldl_cons, h1]
        rw [ih]
        simp [mtmSpec, List.filterMap_cons, h1]
      · rcases h2 : rowAt df d with _ | r
        · simp only [List.foldl_cons, h1, h2]
          rw [ih]
          simp [mtmSpec, List.filterMap_cons, h1, h2]
        · simp only [List.foldl_cons, h1, h2]
          rw [ih]
          simp only [mtmSpec, List.filterMap_cons, h1, h2, Option.map,
            List.sum_cons]
          ring
  rw [markToMarket, aux, mtmSpec]
  ring

theorem openPosition_equityHistory (c : Cfg) (pv : ℚ) (st : EngineState)
    (inst : String) (dir : ℤ) (price : ℚ) (d : ℤ) (atr : ℚ) :
    (openPosition c pv st inst dir price d atr).equityHistory
      = st.equityHistory := by
  rw [openPosition]
  split <;> rfl

theorem processInstrument_equityHistory (c : Cfg) (strat : Strategy)
    (pv : String → ℚ) (inst : String) (df : InstrData) (d : ℤ)
    (s : EngineState) :
    (processInstrument c strat pv inst df d s).equityHistory
      = s.equityHistory := by
  rw [processInstrument]
  rcases hrow : rowAt df d with _ | row
  · rfl
  · simp only
    split
    · rfl
    · split
      · rfl
      · rename_i nd nr heq
        split
        · rcases hget : alGet s.positions inst with _ | pos
          · simp only [hget]
            rw [openPosition_equityHistory]
          · simp only [hget]
            rw [openPosition_equityHistory, closePosition_capital_positions]
        · rcases hget : alGet s.positions inst with _ | pos
          · simp [hget]
          · simp only [hget]
            exact closePosition_capital_positions _ _ _ _ _

theorem updateTrailing_equityHistory (data : List (String × InstrData))
    (d : ℤ) (st : EngineState) :
    (updateTrailing data d st).equityHistory = st.equityHistory := rfl

theorem stepDate_equityHistory (c : Cfg) (strat : Strategy)
    (pv : String → ℚ) (data : List (String × InstrData)) (st : EngineState)
    (d : ℤ) :
    (stepDate c strat pv data st d).equityHistory
      = st.equityHistory ++ [(d, st.capital + mtmSpec st.positions data d)] := by
  have hfold : ∀ (l : List (String × InstrData)) (s : EngineState),
      (l.foldl (fun s e => processInstrument c strat pv e.1 e.2 d s)
        s).equityHistory = s.equityHistory := by
    intro l
    induction l with
    | nil => intro s; rfl
    | cons e t ih =>
      intro s
      rw [List.foldl_cons, ih, processInstrument_equityHistory]
  rw [stepDate, updateTrailing_equityHistory, hfold]
  simp [markToMarket_eq_mtmSpec]

theorem foldl_equityHistory (c : Cfg) (strat : Strategy) (pv : String → ℚ)
    (data : List (String × InstrData)) (L : List ℤ) :
    ∀ st : EngineState,
      ((L.foldl (stepDate c strat pv data) st).equityHistory)
        = st.equityHistory ++ equitySpec c strat pv data st L := by
  induction L with
  | nil => intro st; simp [equitySpec]
  | cons d ds ih =>
    intro st
    rw [List.foldl_cons, ih, stepDate_equityHistory, equitySpec]
    simp

theorem equitySpec_append (c : Cfg) (strat : Strategy) (pv : String → ℚ)
    (data : List (String × InstrData)) (M N : List ℤ) :
    ∀ st : EngineState,
      equitySpec c strat pv data st (M ++ N)
        = equitySpec c strat pv data st M
          ++ equitySpec c strat pv data
              (M.foldl (stepDate c strat pv data) st) N := by
  induction M with
  | nil => intro st; simp [equitySpec]
  | cons d ds ih =>
    intro st
    simp only [List.cons_append, equitySpec, List.foldl_cons,
      List.append_eq]
    rw [ih]

theorem getLastQ_mem {α : Type} (l : List α) (a : α)
    (h : l.getLast? = some a) : a ∈ l := by
  induction l with
  | nil => simp at h
  | cons b t ih =>
    cases t with
    | nil =>
      simp only [List.getLast?_singleton, Option.some.injEq] at h
      simp [h]
    | cons e u =>
      rw [List.getLast?_cons_cons] at h
      exact List.mem_cons_of_mem b (ih h)

theorem eq_append_of_getLastQ {α : Type} (l : List α) (a : α)
    (h : l.getLast? = some a) : ∃ M, l = M ++ [a] := by
  induction l with
  | nil => simp at h
  | cons b t ih =>
    cases t with
    | nil =>
      simp only [List.getLast?_singleton, Option.some.injEq] at h
      exact ⟨[], by simp [h]⟩
    | cons e u =>
      rw [List.getLast?_cons_cons] at h
      obtain ⟨M, hM⟩ := ih h
      exact ⟨b :: M, by simp [hM]⟩

theorem le_of_sorted_getLastQ (l : List ℤ) (hs : l.Sorted (· ≤ ·)) :
    ∀ x ∈ l, ∀ dLast, l.getLast? = some dLast → x ≤ dLast := by
  induction l with
  | nil => simp
  | cons a t ih =>
    intro x hx dLast hlast
    cases t with
    | nil =>
      simp only [List.getLast?_singleton, Option.some.injEq] at hlast
      simp only [List.mem_singleton] at hx
      rw [hx, hlast]
    | cons b u =>
      rw [List.getLast?_cons_cons] at hlast
      have hdmem : dLast ∈ b :: u := getLastQ_mem _ _ hlast
      rcases List.mem_cons.mp hx with rfl | hx'
      · exact (List.pairwise_cons.mp hs).1 dLast hdmem
      · exact ih hs.of_cons x hx' dLast hlast

theorem mem_sortedUnionDates (data : List (String × InstrData)) (x : ℤ)
    (e : String × InstrData) (he : e ∈ data) (r : Row) (hx : (x, r) ∈ e.2) :
    x ∈ sortedUnionDates data := by
  rw [sortedUnionDates]
  have hperm := List.perm_insertionSort (α := ℤ) (· ≤ ·)
    (((data.map (fun e => e.2.map (·.1))).flatten).dedup)
  rw [hperm.mem_iff, List.mem_dedup, List.mem_flatten]
  refine ⟨e.2.map (·.1), List.mem_map_of_mem _ he, ?_⟩
  have := List.mem_map_of_mem (fun p : ℤ × Row => p.1) hx
  simpa using this

theorem sortedUnionDates_sorted (data : List (String × InstrData)) :
    (sortedUnionDates data).Sorted (· ≤ ·) := by
  rw [sortedUnionDates]
  exact List.sorted_insertionSort _ _

theorem nextEntry_some_imp_mem_key (df : InstrData) (d : ℤ)
    (e : ℤ × Row) (h : nextEntry df d = some e) : ∃ r, (d, r) ∈ df := by
  induction df with
  | nil => simp [nextEntry] at h
  | cons f rest ih =>
    rw [nextEntry] at h
    by_cases hf : f.1 = d
    · exact ⟨f.2, by simp [← hf]⟩
    · rw [if_neg hf] at h
      obtain ⟨r, hr⟩ := ih h
      exact ⟨r, List.mem_cons_of_mem f hr⟩

theorem nextEntry_none_of_ub (df : InstrData) (d : ℤ)
    (hs : (df.map Prod.fst).Chain' (· < ·))
    (hub : ∀ x ∈ df.map Prod.fst, x ≤ d) : nextEntry df d = none := by
  cases hne : nextEntry df d with
  | none => rfl
  | some e =>
    rcases e with ⟨nd, nr⟩
    have h1 := nextEntry_lt df d nd nr hs hne
    have h2 := nextEntry_mem df d _ hne
    have h3 : nd ∈ df.map Prod.fst := List.mem_map_of_mem Prod.fst h2
    exact absurd (hub nd h3) (not_le.mpr h1)

theorem processInstrument_of_nextEntry_none (c : Cfg) (strat : Strategy)
    (pv : String → ℚ) (inst : String) (df : InstrData) (d : ℤ)
    (s : EngineState) (hnone : nextEntry df d = none) :
    processInstrument c strat pv inst df d s = s := by
  rw [processInstrument]
  rcases hrow : rowAt df d with _ | row
  · rfl
  · simp only [hnone]
    split <;> rfl

theorem foldl_eq_self {α β : Type} (g : α → β → α) (l : List β)
    (h : ∀ s e, e ∈ l → g s e = s) : ∀ s, l.foldl g s = s := by
  induction l with
  | nil => intro s; rfl
  | cons e t ih =>
    intro s
    rw [List.foldl_cons, h s e (List.mem_cons_self e t)]
    exact ih (fun s' e' he' => h s' e' (List.mem_cons_of_mem e he')) s

theorem updateTrailingPos_entryPrice (p : Position) (r : Row) :
    (updateTrailingPos p r).entryPrice = p.entryPrice ∧
    (updateTrailingPos p r).direction = p.direction ∧
    (updateTrailingPos p r).contracts = p.contracts ∧
    (updateTrailingPos p r).pointValue = p.pointValue := by
  rw [updateTrailingPos]
  split <;> exact ⟨rfl, rfl, rfl, rfl⟩

theorem mtmSpec_cons (x : String × Position) (ps : List (String × Position))
    (data : List (String × InstrData)) (d : ℤ) :
    mtmSpec (x :: ps) data d
      = (match alGet data x.1 with
         | none => 0
         | some df =>
           match rowAt df d with
           | none => 0
           | some r => (r.closeP - x.2.entryPrice) * (x.2.direction : ℚ)
               * x.2.contracts * x.2.pointValue) + mtmSpec ps data d := by
  rw [mtmSpec, mtmSpec, List.filterMap_cons]
  rcases h1 : alGet data x.1 with _ | df
  · simp
  · rcases h2 : rowAt df d with _ | r
    · simp [Option.map, h2]
    · simp [Option.map, h2]

theorem mtmSpec_posMap (dataU data : List (String × InstrData)) (dU d : ℤ)
    (ps : List (String × Position)) :
    mtmSpec (ps.map (fun e =>
      match alGet dataU e.1 with
      | none => e
      | some df =>
        match rowAt df dU with
        | none => e
        | some r => (e.1, updateTrailingPos e.2 r))) data d
    = mtmSpec ps data d := by
  induction ps with
  | nil => rfl
  | cons e rest ih =>
    rw [List.map_cons, mtmSpec_cons, mtmSpec_cons, ih]
    congr 1
    rcases h1 : alGet dataU e.1 with _ | df
    · rfl
    · rcases h2 : rowAt df dU with _ | r
      · simp [h2]
      · simp only [h2]
        have hfields := updateTrailingPos_entryPrice e.2 r
        rcases h3 : alGet data e.1 with _ | df'
        · rfl
        · simp only [hfields.1, hfields.2.1, hfields.2.2.1,
            hfields.2.2.2]

/-- Claim C6: for every date of the unioned calendar, the equity observation
recorded for that date equals the cash capital of the state before any of
that date's signal evaluations or executions, plus the sum over every open
Position whose instrument has data on that date of
(Close - entry price) * direction * contracts * point value; positions
whose instrument lacks data contribute nothing, and the record is appended
before any same-day trading decision (the final overwrite pass re-marks the
last date and leaves this unchanged). -/
theorem claim_C6 (c : Cfg) (strat : Strategy) (pv : String → ℚ)
    (data : List (String × InstrData)) (init : ℚ)
    (hsorted : ∀ e ∈ data, (e.2.map Prod.fst).Chain' (· < ·)) :
    (run c strat pv data init).equityHistory
      = equitySpec c strat pv data (initState init)
          (sortedUnionDates data) := by
  have hfold := foldl_equityHistory c strat pv data (sortedUnionDates data)
    (initState init)
  rw [run]
  cases hgl : (sortedUnionDates data).getLast? with
  | none => simpa [initState] using hfold
  | some dLast =>
    obtain ⟨M, hM⟩ := eq_append_of_getLastQ _ _ hgl
    have hnoop : ∀ s : EngineState, data.foldl
        (fun s e => processInstrument c strat pv e.1 e.2 dLast s) s = s := by
      intro s
      apply foldl_eq_self
      intro s' e he
      apply processInstrument_of_nextEntry_none
      apply nextEntry_none_of_ub _ _ (hsorted e he)
      intro x hx
      obtain ⟨p, hp, hpx⟩ := List.mem_map.mp hx
      have hmem : x ∈ sortedUnionDates data := by
        refine mem_sortedUnionDates data x e he p.2 ?_
        rw [show (x, p.2) = p from by rw [← hpx]]
        exact hp
      exact le_of_sorted_getLastQ _ (sortedUnionDates_sorted data) x hmem
        dLast hgl
    set stM : EngineState := M.foldl (stepDate c strat pv data)
      (initState init) with hstM
    have hsplit : (sortedUnionDates data).foldl (stepDate c strat pv data)
        (initState init) = stepDate c strat pv data stM dLast := by
      rw [hM, List.foldl_append]
      rfl
    have hspec : equitySpec c strat pv data (initState init)
        (sortedUnionDates data)
        = equitySpec c strat pv data (initState init) M
          ++ [(dLast, stM.capital + mtmSpec stM.positions data dLast)] := by
      rw [hM, equitySpec_append]
      rfl
    have hstepL : stepDate c strat pv data stM dLast
        = updateTrailing data dLast
            { stM with equityHistory := stM.equityHistory
                ++ [(dLast, stM.capital
                      + markToMarket stM.positions data dLast)] } := by
      rw [stepDate, hnoop]
    have hEH : (stepDate c strat pv data stM dLast).equityHistory
        = equitySpec c strat pv data (initState init) M
          ++ [(dLast, stM.capital + mtmSpec stM.positions data dLast)] := by
      rw [← hsplit, hfold, hspec]
      simp [initState]
    rw [hsplit, hEH]
    rw [List.getLast?_concat]
    have hcap : (stepDate c strat pv data stM dLast).capital
        = stM.capital := by
      rw [hstepL]
      rfl
    have hmtm : markToMarket (stepDate c strat pv data stM dLast).positions
        data dLast = mtmSpec stM.positions data dLast := by
      rw [hstepL, markToMarket_eq_mtmSpec, updateTrailing]
      exact mtmSpec_posMap data data dLast dLast stM.positions
    simp only [hcap, hmtm, List.dropLast_concat]
    rw [hspec]

/-- Witness for C6: a concrete one-instrument two-day run. -/
theorem claim_C6_witness :
    (run ⟨1, 1, 0, 1/10, false⟩ (fun _ _ _ _ => 1) (fun _ => 1)
        [("A", [((0:ℤ), rowD0), (1, rowD1)])] 1000).equityHistory
      = equitySpec ⟨1, 1, 0, 1/10, false⟩ (fun _ _ _ _ => 1) (fun _ => 1)
          [("A", [((0:ℤ), rowD0), (1, rowD1)])] (initState 1000)
          (sortedUnionDates [("A", [((0:ℤ), rowD0), (1, rowD1)])]) := by
  apply claim_C6
  intro e he
  simp only [List.mem_singleton] at he
  subst he
  simp [List.chain'_cons]

/-! ## Claim C4: the maximum-drawdown-duration algorithm -/

/-- Boolean form of "this day is in drawdown". -/
def ddNeg (x : ℤ × ℚ) : Bool := decide (x.2 < 0)

theorem runsAux_cur_ne_nil :
    ∀ (dd cur : List (ℤ × ℚ)), cur ≠ [] →
      runsAux dd cur = (cur.reverse ++ dd.takeWhile ddNeg)
        :: runsAux ((dd.dropWhile ddNeg).tail) [] := by
  intro dd
  induction dd with
  | nil =>
    intro cur hc
    simp [runsAux, List.isEmpty_iff, hc]
  | cons x rest ih =>
    intro cur hc
    by_cases hx : x.2 < 0
    · rw [runsAux, if_pos hx, ih (x :: cur) (by simp)]
      rw [List.takeWhile_cons, List.dropWhile_cons]
      simp only [ddNeg, decide_eq_true_eq, hx, if_true, reduceIte]
      simp
    · rw [runsAux, if_neg hx, if_neg (by simp [List.isEmpty_iff, hc])]
      rw [List.takeWhile_cons, List.dropWhile_cons]
      simp only [ddNeg, decide_eq_true_eq, hx, reduceIte]
      simp

theorem ddRuns_cons_neg (x : ℤ × ℚ) (rest : List (ℤ × ℚ))
    (hx : x.2 < 0) :
    ddRuns (x :: rest) = ((x :: rest).takeWhile ddNeg)
      :: ddRuns (((x :: rest).dropWhile ddNeg).tail) := by
  rw [ddRuns, runsAux, if_pos hx, runsAux_cur_ne_nil rest [x] (by simp)]
  rw [List.takeWhile_cons, List.dropWhile_cons]
  simp only [ddNeg, decide_eq_true_eq, hx, if_true, reduceIte]
  rfl

theorem ddRuns_cons_nonneg (x : ℤ × ℚ) (rest : List (ℤ × ℚ))
    (hx : ¬ x.2 < 0) : ddRuns (x :: rest) = ddRuns rest := by
  rw [ddRuns, runsAux, if_neg hx]
  simp [ddRuns]

theorem foldl_maxdur_shift :
    ∀ (rs : List (List (ℤ × ℚ))) (a b : ℤ),
      rs.foldl (fun m r => max m (runDuration r)) (max a b)
        = max a (rs.foldl (fun m r => max m (runDuration r)) b) := by
  intro rs
  induction rs with
  | nil => intro a b; rfl
  | cons r t ih =>
    intro a b
    rw [List.foldl_cons, List.foldl_cons, max_assoc, ih]

theorem maxDrawdownDuration_cons_runs (r : List (ℤ × ℚ))
    (rs : List (List (ℤ × ℚ))) :
    (r :: rs).foldl (fun m r => max m (runDuration r)) 0
      = max (runDuration r)
          (rs.foldl (fun m r => max m (runDuration r)) 0) := by
  rw [List.foldl_cons, show max 0 (runDuration r) = max (runDuration r) 0
    from max_comm _ _, foldl_maxdur_shift]

theorem dropWhile_eq_drop_length_takeWhile :
    ∀ dd : List (ℤ × ℚ),
      dd.dropWhile ddNeg = dd.drop ((dd.takeWhile ddNeg).length) := by
  intro dd
  induction dd with
  | nil => rfl
  | cons y ys ih =>
    rw [List.takeWhile_cons, List.dropWhile_cons]
    by_cases hy : ddNeg y = true
    · simp only [hy, if_true, reduceIte, List.length_cons]
      rw [ih]
      rfl
    · simp only [hy, reduceIte]
      rfl

theorem takeWhile_neg_valAt :
    ∀ (dd : List (ℤ × ℚ)) (k : ℕ), k < (dd.takeWhile ddNeg).length →
      valAt dd k < 0 := by
  intro dd
  induction dd with
  | nil => intro k hk; simp at hk
  | cons y ys ih =>
    intro k hk
    rw [List.takeWhile_cons] at hk
    by_cases hy : y.2 < 0
    · simp only [ddNeg, decide_eq_true_eq, hy, if_true, reduceIte,
        List.length_cons] at hk
      cases k with
      | zero => exact hy
      | succ m => exact ih m (Nat.lt_of_succ_lt_succ hk)
    · simp [ddNeg, hy] at hk
theorem takeWhile_end_not_neg :
    ∀ dd : List (ℤ × ℚ), (dd.takeWhile ddNeg).length < dd.length →
      ¬ valAt dd ((dd.takeWhile ddNeg).length) < 0 := by
  intro dd
  induction dd with
  | nil => intro h; simp at h
  | cons y ys ih =>
    intro h
    rw [List.takeWhile_cons] at h ⊢
    by_cases hy : y.2 < 0
    · simp only [ddNeg, decide_eq_true_eq, hy, if_true, reduceIte,
        List.length_cons] at h ⊢
      exact ih (Nat.lt_of_succ_lt_succ h)
    · simp only [ddNeg, decide_eq_true_eq, hy, reduceIte, List.length_nil]
      exact hy

theorem takeWhile_getD_eq :
    ∀ (dd : List (ℤ × ℚ)) (k : ℕ), k < (dd.takeWhile ddNeg).length →
      (dd.takeWhile ddNeg).getD k (0, 0) = dd.getD k (0, 0) := by
  intro dd
  induction dd with
  | nil => intro k hk; simp at hk
  | cons y ys ih =>
    intro k hk
    rw [List.takeWhile_cons] at hk ⊢
    by_cases hy : ddNeg y = true
    · simp only [hy, if_true, reduceIte, List.length_cons] at hk ⊢
      cases k with
      | zero => rfl
      | succ m => exact ih m (Nat.lt_of_succ_lt_succ hk)
    · simp [hy] at hk

theorem getD_drop_eq {α : Type} :
    ∀ (n : ℕ) (l : List α) (k : ℕ) (z : α),
      (l.drop n).getD k z = l.getD (n + k) z := by
  intro n
  induction n with
  | zero => intro l k z; simp
  | succ m ih =>
    intro l k z
    cases l with
    | nil => simp
    | cons y ys =>
      rw [List.drop_succ_cons, ih]
      have : m + 1 + k = (m + k) + 1 := by omega
      rw [this]
      rfl

theorem getLastD_eq_getD {α : Type} (l : List α) (z : α) :
    l.getLastD z = l.getD (l.length - 1) z := by
  rw [List.getLastD_eq_getLast? z l, List.getLast?_eq_getElem?,
    List.getD_eq_getElem?_getD]

theorem valAt_drop (dd : List (ℤ × ℚ)) (n k : ℕ) :
    valAt (dd.drop n) k = valAt dd (n + k) := by
  rw [valAt, valAt, getD_drop_eq]

theorem dateAt_drop (dd : List (ℤ × ℚ)) (n k : ℕ) :
    dateAt (dd.drop n) k = dateAt dd (n + k) := by
  rw [dateAt, dateAt, getD_drop_eq]

theorem isMaxRun_cons_nonneg (x : ℤ × ℚ) (rest : List (ℤ × ℚ))
    (hx : ¬ x.2 < 0) (i j : ℕ) :
    isMaxRun (x :: rest) i j ↔
      ∃ i' j', isMaxRun rest i' j' ∧ i = i' + 1 ∧ j = j' + 1 := by
  constructor
  · rintro ⟨hij, hjlen, hall, hleft, hright⟩
    have hi0 : i ≠ 0 := by
      intro h
      apply hx
      have := hall 0 (by simp only [Finset.mem_Icc]; omega)
      simpa [inDrawdown, valAt, h] using this
    obtain ⟨i', rfl⟩ : ∃ i', i = i' + 1 := ⟨i - 1, by omega⟩
    obtain ⟨j', rfl⟩ : ∃ j', j = j' + 1 := ⟨j - 1, by omega⟩
    simp only [List.length_cons] at hjlen
    refine ⟨i', j', ⟨by omega, by omega, ?_, ?_, ?_⟩, rfl, rfl⟩
    · intro k hk
      simp only [Finset.mem_Icc] at hk
      have := hall (k + 1) (by simp only [Finset.mem_Icc]; omega)
      simpa [inDrawdown, valAt] using this
    · cases i' with
      | zero => exact Or.inl rfl
      | succ m =>
        rcases hleft with h0 | hnd
        · omega
        · right
          simpa [inDrawdown, valAt] using hnd
    · rcases hright with h0 | hnd
      · left
        simp only [List.length_cons] at h0
        omega
      · right
        simpa [inDrawdown, valAt] using hnd
  · rintro ⟨i', j', ⟨hij, hjlen, hall, hleft, hright⟩, rfl, rfl⟩
    refine ⟨by omega, by simp only [List.length_cons]; omega, ?_, ?_, ?_⟩
    · intro k hk
      simp only [Finset.mem_Icc] at hk
      obtain ⟨k', rfl⟩ : ∃ k', k = k' + 1 := ⟨k - 1, by omega⟩
      have := hall k' (by simp only [Finset.mem_Icc]; omega)
      simpa [inDrawdown, valAt] using this
    · right
      cases i' with
      | zero => simpa [inDrawdown, valAt] using hx
      | succ m =>
        rcases hleft with h0 | hnd
        · omega
        · simpa [inDrawdown, valAt] using hnd
    · rcases hright with h0 | hnd
      · left
        simp only [List.length_cons]
        omega
      · right
        simpa [inDrawdown, valAt] using hnd

theorem isMaxRun_cons_neg (x : ℤ × ℚ) (rest : List (ℤ × ℚ)) (hx : x.2 < 0)
    (i j : ℕ) :
    isMaxRun (x :: rest) i j ↔
      ((i = 0 ∧ j = ((x :: rest).takeWhile ddNeg).length - 1) ∨
        (∃ i' j', isMaxRun ((x :: rest).drop
            (((x :: rest).takeWhile ddNeg).length + 1)) i' j' ∧
          i = i' + (((x :: rest).takeWhile ddNeg).length + 1) ∧
          j = j' + (((x :: rest).takeWhile ddNeg).length + 1))) := by
  set dd := x :: rest with hdd
  set t := (dd.takeWhile ddNeg).length with hT
  have ht1 : 1 ≤ t := by
    rw [hT, hdd, List.takeWhile_cons]
    simp [ddNeg, hx]
  have ht2 : t ≤ dd.length := (List.takeWhile_prefix ddNeg).length_le
  have tA : ∀ k, k < t → valAt dd k < 0 := fun k hk =>
    takeWhile_neg_valAt dd k hk
  have tB : t < dd.length → ¬ valAt dd t < 0 := takeWhile_end_not_neg dd
  constructor
  · rintro ⟨hij, hjlen, hall, hleft, hright⟩
    by_cases hi : i < t
    · left
      have hjt : j < t := by
        by_contra hge
        push_neg at hge
        have htl : t < dd.length := lt_of_le_of_lt hge hjlen
        exact tB htl (hall t (by simp only [Finset.mem_Icc]; omega))
      have hj : j = t - 1 := by
        by_contra hne
        have hj1 : j + 1 < t := by omega
        rcases hright with h0 | hnd
        · omega
        · exact hnd (tA (j + 1) hj1)
      have hi0 : i = 0 := by
        by_contra hne
        obtain ⟨m, rfl⟩ : ∃ m, i = m + 1 := ⟨i - 1, by omega⟩
        rcases hleft with h0 | hnd
        · omega
        · exact hnd (by simpa [inDrawdown] using tA m (by omega))
      exact ⟨hi0, hj⟩
    · right
      push_neg at hi
      have hit : i ≠ t := by
        intro h
        have htl : t < dd.length := by omega
        refine tB htl ?_
        have := hall i (by simp only [Finset.mem_Icc]; omega)
        rwa [inDrawdown, h] at this
      obtain ⟨i', rfl⟩ : ∃ i', i = i' + (t + 1) := ⟨i - (t + 1), by omega⟩
      obtain ⟨j', rfl⟩ : ∃ j', j = j' + (t + 1) := ⟨j - (t + 1), by omega⟩
      refine ⟨i', j', ⟨by omega, ?_, ?_, ?_, ?_⟩, rfl, rfl⟩
      · rw [List.length_drop]
        omega
      · intro k hk
        simp only [Finset.mem_Icc] at hk
        have := hall (k + (t + 1)) (by simp only [Finset.mem_Icc]; omega)
        rw [inDrawdown] at this
        rw [inDrawdown, valAt_drop]
        have harith : (t + 1) + k = k + (t + 1) := by omega
        rwa [harith]
      · cases i' with
        | zero => exact Or.inl rfl
        | succ m =>
          rcases hleft with h0 | hnd
          · omega
          · right
            rw [inDrawdown, valAt_drop]
            intro hcon
            apply hnd
            rw [inDrawdown]
            have harith : m + 1 + (t + 1) - 1 = (t + 1) + (m + 1 - 1) := by
              omega
            rwa [harith]
      · rcases hright with h0 | hnd
        · left
          rw [List.length_drop]
          omega
        · right
          rw [inDrawdown, valAt_drop]
          intro hcon
          apply hnd
          rw [inDrawdown]
          have harith : j' + (t + 1) + 1 = (t + 1) + (j' + 1) := by omega
          rwa [harith]
  · rintro (⟨rfl, rfl⟩ | ⟨i', j', ⟨hij, hjlen, hall, hleft, hright⟩, rfl, rfl⟩)
    · refine ⟨by omega, by omega, ?_, Or.inl rfl, ?_⟩
      · intro k hk
        simp only [Finset.mem_Icc] at hk
        exact tA k (by omega)
      · rcases Nat.lt_or_ge t dd.length with hlt | hge
        · right
          rw [inDrawdown]
          have harith : t - 1 + 1 = t := by omega
          rw [harith]
          exact tB hlt
        · left
          omega
    · have hjlen' : j' + (t + 1) < dd.length := by
        rw [List.length_drop] at hjlen
        omega
      refine ⟨by omega, hjlen', ?_, ?_, ?_⟩
      · intro k hk
        simp only [Finset.mem_Icc] at hk
        obtain ⟨k', rfl⟩ : ∃ k', k = k' + (t + 1) := ⟨k - (t + 1), by omega⟩
        have := hall k' (by simp only [Finset.mem_Icc]; omega)
        rw [inDrawdown, valAt_drop] at this
        rw [inDrawdown]
        have harith : (t + 1) + k' = k' + (t + 1) := by omega
        rwa [harith] at this
      · right
        cases i' with
        | zero =>
          have htl : t < dd.length := by omega
          have harith : 0 + (t + 1) - 1 = t := by omega
          rw [inDrawdown, harith]
          exact tB htl
        | succ m =>
          rcases hleft with h0 | hnd
          · omega
          · rw [inDrawdown]
            have harith : m + 1 + (t + 1) - 1 = (t + 1) + m := by omega
            rw [harith, ← valAt_drop]
            simpa [inDrawdown] using hnd
      · rcases hright with h0 | hnd
        · left
          rw [List.length_drop] at h0
          omega
        · right
          rw [inDrawdown]
          have harith : j' + (t + 1) + 1 = (t + 1) + (j' + 1) := by omega
          rw [harith, ← valAt_drop]
          simpa [inDrawdown] using hnd

/-- The index pairs of all maximal in-drawdown runs. -/
def specSet (dd : List (ℤ × ℚ)) : Finset (ℕ × ℕ) :=
  ((Finset.range dd.length) ×ˢ (Finset.range dd.length)).filter
    (fun p => isMaxRun dd p.1 p.2)

theorem specMaxDDDuration_eq_fold (dd : List (ℤ × ℚ)) :
    specMaxDDDuration dd = (specSet dd).fold (· ⊔ ·) (0 : ℤ)
      (fun p => dateAt dd p.2 - dateAt dd p.1) := rfl

theorem mem_specSet (dd : List (ℤ × ℚ)) (p : ℕ × ℕ) :
    p ∈ specSet dd ↔ isMaxRun dd p.1 p.2 := by
  simp only [specSet, Finset.mem_filter, Finset.mem_product,
    Finset.mem_range]
  constructor
  · rintro ⟨-, h⟩
    exact h
  · intro h
    have h1 := h.1
    have h2 := h.2.1
    exact ⟨⟨by omega, h2⟩, h⟩

theorem specMaxDDDuration_nil : specMaxDDDuration [] = 0 := by
  rw [specMaxDDDuration_eq_fold]
  have : specSet ([] : List (ℤ × ℚ)) = ∅ := by
    ext p
    rw [mem_specSet]
    simp [isMaxRun]
  rw [this, Finset.fold_empty]

theorem maxDrawdownDuration_cons_nonneg (x : ℤ × ℚ)
    (rest : List (ℤ × ℚ)) (hx : ¬ x.2 < 0) :
    maxDrawdownDuration (x :: rest) = maxDrawdownDuration rest := by
  rw [maxDrawdownDuration, maxDrawdownDuration, ddRuns_cons_nonneg x rest hx]

theorem specMaxDDDuration_cons_nonneg (x : ℤ × ℚ)
    (rest : List (ℤ × ℚ)) (hx : ¬ x.2 < 0) :
    specMaxDDDuration (x :: rest) = specMaxDDDuration rest := by
  have hset : specSet (x :: rest)
      = (specSet rest).image (fun p => (p.1 + 1, p.2 + 1)) := by
    ext p
    rcases p with ⟨i, j⟩
    rw [mem_specSet]
    rw [isMaxRun_cons_nonneg x rest hx]
    simp only [Finset.mem_image, mem_specSet, Prod.mk.injEq]
    constructor
    · rintro ⟨i', j', h, rfl, rfl⟩
      exact ⟨(i', j'), h, rfl, rfl⟩
    · rintro ⟨⟨i', j'⟩, h, rfl, rfl⟩
      exact ⟨i', j', h, rfl, rfl⟩
  rw [specMaxDDDuration_eq_fold, hset, Finset.fold_image]
  · rfl
  · rintro ⟨a, b⟩ - ⟨e, f⟩ - h
    simp only [Prod.mk.injEq] at h
    have := h.1
    have := h.2
    simp only [Prod.mk.injEq]
    omega

theorem headD_eq_getD {α : Type} (l : List α) (z : α) :
    l.headD z = l.getD 0 z := by
  cases l <;> rfl

theorem maxDrawdownDuration_cons_neg (x : ℤ × ℚ) (rest : List (ℤ × ℚ))
    (hx : x.2 < 0) :
    maxDrawdownDuration (x :: rest)
      = max (dateAt (x :: rest) (((x :: rest).takeWhile ddNeg).length - 1)
             - dateAt (x :: rest) 0)
          (maxDrawdownDuration ((x :: rest).drop
            (((x :: rest).takeWhile ddNeg).length + 1))) := by
  set dd := x :: rest with hdd
  have ht1 : 1 ≤ (dd.takeWhile ddNeg).length := by
    rw [hdd, List.takeWhile_cons]
    simp [ddNeg, hx]
  rw [maxDrawdownDuration, ddRuns_cons_neg x rest hx,
    maxDrawdownDuration_cons_runs]
  congr 1
  · rw [runDuration, getLastD_eq_getD, headD_eq_getD,
      takeWhile_getD_eq dd ((dd.takeWhile ddNeg).length - 1) (by omega),
      takeWhile_getD_eq dd 0 (by omega)]
    rfl
  · rw [dropWhile_eq_drop_length_takeWhile, List.tail_drop]
    rfl

theorem specMaxDDDuration_cons_neg (x : ℤ × ℚ) (rest : List (ℤ × ℚ))
    (hx : x.2 < 0) :
    specMaxDDDuration (x :: rest)
      = max (dateAt (x :: rest) (((x :: rest).takeWhile ddNeg).length - 1)
             - dateAt (x :: rest) 0)
          (specMaxDDDuration ((x :: rest).drop
            (((x :: rest).takeWhile ddNeg).length + 1))) := by
  set dd := x :: rest with hdd
  set t := (dd.takeWhile ddNeg).length with hT
  have hset : specSet dd
      = insert (0, t - 1) ((specSet (dd.drop (t + 1))).image
          (fun p => (p.1 + (t + 1), p.2 + (t + 1)))) := by
    ext p
    rcases p with ⟨i, j⟩
    rw [mem_specSet]
    rw [show isMaxRun dd i j ↔ _ from isMaxRun_cons_neg x rest hx i j]
    simp only [Finset.mem_insert, Finset.mem_image, mem_specSet,
      Prod.mk.injEq]
    constructor
    · rintro (⟨rfl, rfl⟩ | ⟨i', j', h, rfl, rfl⟩)
      · exact Or.inl ⟨rfl, rfl⟩
      · exact Or.inr ⟨(i', j'), h, rfl, rfl⟩
    · rintro (⟨rfl, rfl⟩ | ⟨⟨i', j'⟩, h, rfl, rfl⟩)
      · exact Or.inl ⟨rfl, rfl⟩
      · exact Or.inr ⟨i', j', h, rfl, rfl⟩
  have hnotmem : (0, t - 1) ∉ (specSet (dd.drop (t + 1))).image
      (fun p => (p.1 + (t + 1), p.2 + (t + 1))) := by
    simp only [Finset.mem_image, Prod.mk.injEq, not_exists, not_and]
    rintro ⟨i', j'⟩ - h
    omega
  have hcong : (specSet (dd.drop (t + 1))).fold (· ⊔ ·) (0 : ℤ)
      ((fun p : ℕ × ℕ => dateAt dd p.2 - dateAt dd p.1)
        ∘ (fun p : ℕ × ℕ => (p.1 + (t + 1), p.2 + (t + 1))))
      = (specSet (dd.drop (t + 1))).fold (· ⊔ ·) (0 : ℤ)
        (fun p => dateAt (dd.drop (t + 1)) p.2
          - dateAt (dd.drop (t + 1)) p.1) := by
    apply Finset.fold_congr
    rintro ⟨a, b⟩ -
    simp only [Function.comp_apply, dateAt_drop]
    have h1 : b + (t + 1) = (t + 1) + b := by omega
    have h2 : a + (t + 1) = (t + 1) + a := by omega
    rw [h1, h2]
  rw [specMaxDDDuration_eq_fold, hset, Finset.fold_insert hnotmem,
    Finset.fold_image, hcong, ← specMaxDDDuration_eq_fold, sup_eq_max]
  rintro ⟨a, b⟩ - ⟨e, f⟩ - h
  simp only [Prod.mk.injEq] at h
  have := h.1
  have := h.2
  simp only [Prod.mk.injEq]
  omega

theorem maxDrawdownDuration_eq_spec :
    ∀ dd : List (ℤ × ℚ), maxDrawdownDuration dd = specMaxDDDuration dd := by
  have main : ∀ (n : ℕ) (dd : List (ℤ × ℚ)), dd.length ≤ n →
      maxDrawdownDuration dd = specMaxDDDuration dd := by
    intro n
    induction n with
    | zero =>
      intro dd hlen
      have hdd : dd = [] := List.length_eq_zero.mp (by omega)
      rw [hdd, specMaxDDDuration_nil]
      rfl
    | succ m ih =>
      intro dd hlen
      cases dd with
      | nil =>
        rw [specMaxDDDuration_nil]
        rfl
      | cons x rest =>
        by_cases hx : x.2 < 0
        · rw [maxDrawdownDuration_cons_neg x rest hx,
            specMaxDDDuration_cons_neg x rest hx]
          have ht1 : 1 ≤ ((x :: rest).takeWhile ddNeg).length := by
            rw [List.takeWhile_cons]
            simp [ddNeg, hx]
          rw [ih]
          rw [List.length_drop]
          simp only [List.length_cons] at hlen ⊢
          omega
        · rw [maxDrawdownDuration_cons_nonneg x rest hx,
            specMaxDDDuration_cons_nonneg x rest hx]
          apply ih
          simp only [List.length_cons] at hlen
          omega
  intro dd
  exact main dd.length dd le_rfl

/-- Claim C4: the maximum-drawdown-duration computed by
`_max_drawdown_duration` equals the maximum, over all maximal contiguous
runs of strictly-negative drawdown days, of the calendar span between the
run's first and last date (0 when no day is in drawdown); a trailing open
run counts, a single-observation series yields 0, and a zero-or-positive
day terminates a run (all built into `isMaxRun`). -/
theorem claim_C4 (dd : List (ℤ × ℚ)) :
    maxDrawdownDuration dd = specMaxDDDuration dd ∧
    ((∀ y ∈ dd, ¬ y.2 < 0) → maxDrawdownDuration dd = 0) ∧
    (dd.length ≤ 1 → maxDrawdownDuration dd = 0) := by
  refine ⟨maxDrawdownDuration_eq_spec dd, ?_, ?_⟩
  · intro h
    rw [maxDrawdownDuration, ddRuns, runsAux_eq_nil_of_nonneg dd h]
    rfl
  · intro h
    cases dd with
    | nil => rfl
    | cons y ys =>
      have hys : ys = [] := by
        simp only [List.length_cons] at h
        exact List.length_eq_zero.mp (by omega)
      subst hys
      by_cases hy : y.2 < 0
      · simp [maxDrawdownDuration, ddRuns, runsAux, hy, runDuration]
      · simp [maxDrawdownDuration, ddRuns, runsAux, hy]

/-- Witness for C4: a one-day series has duration 0. -/
theorem claim_C4_witness :
    maxDrawdownDuration [((0:ℤ), (1:ℚ))] = 0 :=
  (claim_C4 [((0:ℤ), (1:ℚ))]).2.2 (by norm_num)

end Trendfol
